import Mathlib

/-!
Verification of the ChimeraCat code concatenator (src/chimeracat/chimeracat.py).

The development shallowly embeds the parts of the program that the claims
touch:

* the text-transformation pipeline (`_summarize_content`, `_process_imports`)
  with the four default summary regexes and the relative-import regex compiled
  into deterministic matchers over `List Char` (the patterns are deterministic:
  every starred subexpression is followed by a literal that cannot occur
  inside the star, so the greedy backtracking engine has a unique outcome);
* the dependency-graph builder (`build_dependency_graph`) over relative-path
  strings, with networkx's `DiGraph` modelled as explicit node and edge lists
  and `topological_sort` as Kahn's algorithm (fallback order and cycle
  detection agree with networkx; within-generation tie-breaks, which no claim
  observes, follow node order);
* the ordering and assembly layer (`_get_sorted_files`,
  `generate_concat_file`, `_get_external_imports`).
-/

/-! ## Character classes (Python `\s`, `\w` over ASCII) -/

def isPySpace (c : Char) : Bool :=
  c == ' ' || c == '\t' || c == '\n' || c == '\r' || c == '\x0b' || c == '\x0c'

def isWordChar (c : Char) : Bool :=
  c.isAlphanum || c == '_'

/-! ## Primitive pattern pieces -/

/-- Match a literal, returning the remainder. -/
def litP (pat cs : List Char) : Option (List Char) :=
  if pat.isPrefixOf cs then some (cs.drop pat.length) else none

/-- `\s+` : at least one whitespace character, consumed greedily. -/
def wsPlus (cs : List Char) : Option (List Char) :=
  match cs with
  | [] => none
  | c :: rest => if isPySpace c then some (rest.dropWhile isPySpace) else none

/-- `\w+` : at least one word character, consumed greedily. -/
def wordPlus (cs : List Char) : Option (List Char) :=
  match cs with
  | [] => none
  | c :: rest => if isWordChar c then some (rest.dropWhile isWordChar) else none

/-- `(?:\([^)]*\))?` : an optional parenthesised group; on failure the
optional group matches the empty string, returning the input unchanged. -/
def parenOpt (cs : List Char) : List Char :=
  match cs with
  | '(' :: t =>
    match t.dropWhile (fun c => c != ')') with
    | ')' :: u => u
    | _ => cs
  | _ => cs

def quote3 : List Char := ['\"', '\"', '\"']

/-- `(?:\s*"""[^"]*""")?` : an optional docstring; on failure it matches the
empty string. -/
def docOpt (cs : List Char) : List Char :=
  let w := cs.dropWhile isPySpace
  if quote3.isPrefixOf w then
    let inner := (w.drop 3).dropWhile (fun c => c != '\"')
    if quote3.isPrefixOf inner then inner.drop 3 else cs
  else cs

/-- Does the text begin with the literal `class` or `def` (the negative
lookahead `(?!class|def)` used after a newline)? -/
def startsCD (cs : List Char) : Bool :=
  "class".data.isPrefixOf cs || "def".data.isPrefixOf cs

theorem dropWhile_len_le (p : Char → Bool) (cs : List Char) :
    (cs.dropWhile p).length ≤ cs.length := by
  induction cs with
  | nil => simp [List.dropWhile]
  | cons c cs ih =>
    by_cases h : p c <;> simp [List.dropWhile, h] <;> omega

/-- Fuelled worker for `gobble`; the fuel only bounds the recursion depth
and is set to the input length, which every step strictly decreases. -/
def gobbleF : Nat → List Char → List Char
  | 0, cs => cs
  | fuel + 1, cs =>
    match cs with
    | [] => []
    | c :: rest =>
      if c == '\n' && !(startsCD rest) then
        gobbleF fuel (rest.dropWhile (fun x => x != '\n'))
      else c :: rest

/-- `(?:\n(?!class|def)[^\n]*)*` : greedily consume whole following lines as
long as they do not begin with `class` or `def`; returns the remainder. -/
def gobble (cs : List Char) : List Char :=
  gobbleF cs.length cs

/-! ## The four default summary patterns

`SummaryRules.default_rules` in the source defines, as regex strings:

* interface: `(class\s+\w+(?:\([^)]*\))?):(?:\s*"""[^"]*""")?[^\n]*(?:\n(?!class|def)[^\n]*)*`
* interface: `(def\s+\w+\s*\([^)]*\)):(?:\s*"""[^"]*""")?[^\n]*(?:\n(?!class|def)[^\n]*)*`
* core: `(def\s+get_\w+\([^)]*\)):\s*return[^\n]*\n`
* core: `(def\s*__init__\s*\([^)]*\)):[^\n]*(?:\n(?!def|class)[^\n]*)*`

Each matcher returns the captured group 1 and the remainder after the match.
-/

def tryClass (cs : List Char) : Option (List Char × List Char) :=
  match litP "class".data cs with
  | none => none
  | some r1 =>
    match wsPlus r1 with
    | none => none
    | some r2 =>
      match wordPlus r2 with
      | none => none
      | some r3 =>
        let r4 := parenOpt r3
        match litP [':'] r4 with
        | none => none
        | some r5 =>
          let r6 := docOpt r5
          let r7 := r6.dropWhile (fun c => c != '\n')
          let rest := gobble r7
          some (cs.take (cs.length - r4.length), rest)

def tryDef (cs : List Char) : Option (List Char × List Char) :=
  match litP "def".data cs with
  | none => none
  | some r1 =>
    match wsPlus r1 with
    | none => none
    | some r2 =>
      match wordPlus r2 with
      | none => none
      | some r3 =>
        let r3b := r3.dropWhile isPySpace
        match litP ['('] r3b with
        | none => none
        | some r4a =>
          let r4b := r4a.dropWhile (fun c => c != ')')
          match litP [')'] r4b with
          | none => none
          | some r4 =>
            match litP [':'] r4 with
            | none => none
            | some r5 =>
              let r6 := docOpt r5
              let r7 := r6.dropWhile (fun c => c != '\n')
              let rest := gobble r7
              some (cs.take (cs.length - r4.length), rest)

def tryGetter (cs : List Char) : Option (List Char × List Char) := do
  let r1 ← litP "def".data cs
  let r2 ← wsPlus r1
  let r3 ← litP "get_".data r2
  let r3a ← wordPlus r3
  let r4a ← litP ['('] r3a
  let r4b := r4a.dropWhile (fun c => c != ')')
  let r4 ← litP [')'] r4b
  let r5 ← litP [':'] r4
  let r6 := r5.dropWhile isPySpace
  let r7 ← litP "return".data r6
  let r8 := r7.dropWhile (fun c => c != '\n')
  let rest ← litP ['\n'] r8
  return (cs.take (cs.length - r4.length), rest)

def tryInit (cs : List Char) : Option (List Char × List Char) := do
  let r1 ← litP "def".data cs
  let r2 := r1.dropWhile isPySpace
  let r3 ← litP "__init__".data r2
  let r3b := r3.dropWhile isPySpace
  let r4a ← litP ['('] r3b
  let r4b := r4a.dropWhile (fun c => c != ')')
  let r4 ← litP [')'] r4b
  let r5 ← litP [':'] r4
  let r7 := r5.dropWhile (fun c => c != '\n')
  let rest := gobble r7
  return (cs.take (cs.length - r4.length), rest)

/-- Fuelled worker for `subst`: each step consumes at least one character of
the input (every matcher only succeeds on a nonempty input and consumes at
least one character), so fuel equal to the input length suffices. -/
def substF (tryP : List Char → Option (List Char × List Char))
    (replFn : List Char → List Char) : Nat → List Char → List Char
  | 0, cs => cs
  | _ + 1, [] => []
  | fuel + 1, c :: cs =>
    match tryP (c :: cs) with
    | some (g, rest) => replFn g ++ substF tryP replFn fuel rest
    | none => c :: substF tryP replFn fuel cs

/-- `re.sub` with an unanchored pattern: try the matcher at every position,
left to right, replacing non-overlapping matches and continuing after each
match.  (`SummaryPattern.apply` in the source.) -/
def subst (tryP : List Char → Option (List Char × List Char))
    (replFn : List Char → List Char) (cs : List Char) : List Char :=
  substF tryP replFn cs.length cs

/-- The replacement `SummaryPattern.apply` builds:
`f"{replacement} # {explanation}\n"` with replacement `\1:\n    ... # `. -/
def replStub (expl : String) (g : List Char) : List Char :=
  g ++ (":\n    ... #  # " ++ expl ++ "\n").data

inductive SummaryLevel where
  | INTERFACE
  | CORE
  | NONE
deriving DecidableEq, Repr

def applyClassRule (cs : List Char) : List Char :=
  subst tryClass (replStub "Class interface preserved") cs

def applyDefRule (cs : List Char) : List Char :=
  subst tryDef (replStub "Function signature preserved") cs

def applyGetterRule (cs : List Char) : List Char :=
  subst tryGetter (replStub "Getter method summarized") cs

def applyInitRule (cs : List Char) : List Char :=
  subst tryInit (replStub "Standard initialization summarized") cs

/-- `_summarize_content` on a string, with the default rules: at level NONE
the content is returned unchanged; at INTERFACE the two interface patterns
are applied in order; at CORE the interface patterns and then the core
patterns are applied in order. -/
def summarizeContent (level : SummaryLevel) (s : String) : String :=
  match level with
  | .NONE => s
  | .INTERFACE => ⟨applyDefRule (applyClassRule s.data)⟩
  | .CORE => ⟨applyInitRule (applyGetterRule (applyDefRule (applyClassRule s.data)))⟩

/-! ## `_process_imports` : relative-import neutralization

Pattern `^\s*from\s+\..*$` (MULTILINE), replaced by a function that wraps the
matched text in a `"""RELATIVE_IMPORT: ... """` block indented like the match.
Because of the `^` anchor a match can only begin at a line start; `\s*` may
run across line boundaries from there.
-/

def tryRel (cs : List Char) : Option (List Char × List Char) :=
  match litP "from".data (cs.dropWhile isPySpace) with
  | none => none
  | some r2 =>
    match wsPlus r2 with
    | none => none
    | some r3 =>
      match litP ['.'] r3 with
      | none => none
      | some r4 =>
        let r5 := r4.dropWhile (fun c => c != '\n')
        some (cs.take (cs.length - r5.length), r5)

/-- `replace_relative_import` from the source: the matched text, preserved
verbatim inside an inert triple-quoted block, indented by the match's
leading-whitespace count. -/
def replRel (m : List Char) : List Char :=
  let indent := m.length - (m.dropWhile isPySpace).length
  let spaces := List.replicate indent ' '
  spaces ++ "\"\"\"RELATIVE_IMPORT: \n".data ++ m ++ '\n' :: (spaces ++ "\"\"\"".data)

/-- Fuelled worker for the `re.sub` scan of the `^`-anchored relative-import
pattern: matches are only attempted at line starts (tracked by the boolean
flag); each step consumes at least one character, so fuel equal to the input
length suffices. -/
def procAuxF : Nat → Bool → List Char → List Char
  | 0, _, cs => cs
  | _ + 1, _, [] => []
  | fuel + 1, atLS, c :: cs =>
    if atLS then
      match tryRel (c :: cs) with
      | some (m, rest) => replRel m ++ procAuxF fuel false rest
      | none => c :: procAuxF fuel (c == '\n') cs
    else c :: procAuxF fuel (c == '\n') cs

/-- `_process_imports` on a string (its `module_path` argument is unused by
the source). -/
def processImports (s : String) : String :=
  ⟨procAuxF s.data.length true s.data⟩

/-! ## Dynamic type checks (`isinstance` guards) -/

/-- A Python value as passed to the transformer: a string, or anything else. -/
inductive PyVal where
  | str (s : String)
  | other (tag : String)
deriving DecidableEq

def PyVal.isStr : PyVal → Bool
  | .str _ => true
  | .other _ => false

/-- `_summarize_content` including its `isinstance(content, str)` guard. -/
def summarizeContentChecked (level : SummaryLevel) (v : PyVal) :
    Except String String :=
  match v with
  | .str s => .ok (summarizeContent level s)
  | .other _ => .error "TypeError"

/-- `_process_imports` including its `isinstance(content, str)` guard. -/
def processImportsChecked (v : PyVal) (modulePath : String) :
    Except String String :=
  match v with
  | .str s => .ok (processImports s)
  | .other _ => .error "TypeError"

/-! ## Structural string helpers

Python path/string operations (`split('/')`, `'/'.join`, `startswith`,
`endswith`, set-deduplication, `sorted`) re-expressed as structurally
recursive functions so that every definition evaluates by kernel reduction.
-/

/-- `split` on a separator character, keeping empty pieces (Python
`str.split(sep)`). -/
def splitOnChar (sep : Char) : List Char → List (List Char)
  | [] => [[]]
  | c :: cs =>
    if c == sep then [] :: splitOnChar sep cs
    else
      match splitOnChar sep cs with
      | [] => [[c]]
      | l :: ls => (c :: l) :: ls

/-- `p.split('/')`. -/
def splitSlash (s : String) : List String :=
  (splitOnChar '/' s.data).map (fun l => ⟨l⟩)

/-- `sep.join(parts)`. -/
def joinWith (sep : String) : List String → String
  | [] => ""
  | x :: xs => xs.foldl (fun acc y => acc ++ sep ++ y) x

/-- `s.startswith(p)`. -/
def strStarts (s p : String) : Bool :=
  p.data.isPrefixOf s.data

/-- `s.endswith(p)`. -/
def strEnds (s p : String) : Bool :=
  p.data.isSuffixOf s.data

/-- Lexicographic comparison by code points (Python string `<=`). -/
def charListLe : List Char → List Char → Bool
  | [], _ => true
  | _ :: _, [] => false
  | a :: as, b :: bs =>
    if a.toNat < b.toNat then true
    else if b.toNat < a.toNat then false
    else charListLe as bs

def strLe (a b : String) : Bool :=
  charListLe a.data b.data

/-- Remove duplicates (Python `set` semantics; keeps the last occurrence,
which is irrelevant after sorting). -/
def dedupStr : List String → List String
  | [] => []
  | x :: xs => if xs.contains x then dedupStr xs else x :: dedupStr xs

/-! ## Module records and the dependency graph -/

/-- `ModuleInfo` from the source.  Files are identified by their path
relative to the scan root, written with `/` separators (the source stores
absolute paths and always works with `relative_to(src_dir)` images). -/
structure ModuleInfo where
  path : String
  content : String
  imports : List String
  classes : List String
  functions : List String
deriving DecidableEq, Repr

/-- A directed graph as explicit node and edge lists (networkx `DiGraph`
restricted to what the program uses; insertion order preserved, duplicate
insertions ignored). -/
structure DepGraph where
  nodes : List String
  edges : List (String × String)
deriving DecidableEq, Repr

def addNode (g : DepGraph) (v : String) : DepGraph :=
  if g.nodes.contains v then g else { g with nodes := g.nodes ++ [v] }

def addEdge (g : DepGraph) (u v : String) : DepGraph :=
  let g1 := addNode (addNode g u) v
  if g1.edges.contains (u, v) then g1 else { g1 with edges := g1.edges ++ [(u, v)] }

/-- `str(file_path.parent.relative_to(self.src_dir))` for a file given by its
relative path: the path with the last `/`-component removed, or `.` for a
file at the scan root. -/
def parentDir (p : String) : String :=
  let comps := splitSlash p
  if comps.length ≤ 1 then "." else joinWith "/" comps.dropLast

/-- `imp.replace('.', '/') + '.py'`. -/
def dotPathForm (imp : String) : String :=
  ⟨imp.data.map (fun c => if c == '.' then '/' else c)⟩ ++ ".py"

/-- The candidate target path for a relative import, from the second pass of
`build_dependency_graph`: count all dots of the import, give up if the count
exceeds the component count of the module's directory, otherwise drop that
many trailing components and append the dot-stripped remainder (or
`__init__.py`). -/
def relTarget (moduleDir imp : String) : Option String :=
  let dots := imp.data.count '.'
  let parts := splitSlash moduleDir
  if dots > parts.length then none
  else
    let basePath := joinWith "/" (parts.take (parts.length - dots))
    let targetModule : List Char := imp.data.dropWhile (fun c => c == '.')
    if targetModule ≠ [] then
      some (basePath ++ "/" ++ (⟨targetModule.map (fun c => if c == '.' then '/' else c)⟩ : String) ++ ".py")
    else
      some (basePath ++ "/__init__.py")

/-- Does import string `imp`, found in a module whose directory is
`moduleDir`, make `build_dependency_graph` add an edge towards the module at
`tpath`?  (Inner matching loop of the second pass.) -/
def impResolves (moduleDir imp tpath : String) : Bool :=
  if strStarts imp "." then
    match relTarget moduleDir imp with
    | none => false
    | some full => tpath == full
  else
    strEnds tpath (dotPathForm imp)

/-- Second-pass edge additions contributed by one module: for each of
its import strings, an edge `(module, target)` is added for every known module
the import resolves against.  (Note the source's `add_edge(file_path,
other_path)` — the edge runs from the importer to its dependency.) -/
def addImportEdges (modules : List ModuleInfo) (m : ModuleInfo) (g : DepGraph) : DepGraph :=
  m.imports.foldl
    (fun g imp =>
      modules.foldl
        (fun g other =>
          if impResolves (parentDir m.path) imp other.path then
            addEdge g m.path other.path
          else g)
        g)
    g

/-- `build_dependency_graph`: first pass adds one node per scanned module in
discovery order; second pass adds the import edges. -/
def buildDependencyGraph (scan : List ModuleInfo) : DepGraph :=
  let g0 := scan.foldl (fun g m => addNode g m.path) ⟨[], []⟩
  scan.foldl (fun g m => addImportEdges scan m g) g0

/-! ## Topological ordering (networkx `topological_sort`) -/

def hasIncoming (edges : List (String × String)) (remaining : List String)
    (v : String) : Bool :=
  remaining.any (fun u => edges.contains (u, v))

/-- Kahn's algorithm: repeatedly emit the remaining nodes with no incoming
edge from a remaining node; `none` when stuck (a cycle). -/
def kahnAux (edges : List (String × String)) : Nat → List String → Option (List String)
  | 0, remaining => if remaining.isEmpty then some [] else none
  | fuel + 1, remaining =>
    if remaining.isEmpty then some []
    else
      let ready := remaining.filter (fun v => !(hasIncoming edges remaining v))
      if ready.isEmpty then none
      else (kahnAux edges fuel (remaining.filter (fun v => !(ready.contains v)))).map
        (fun tail => ready ++ tail)

def topologicalSort (g : DepGraph) : Option (List String) :=
  kahnAux g.edges g.nodes.length g.nodes

/-- `_get_sorted_files`: the topological order when one exists, otherwise the
fallback `list(self.modules.keys())`, i.e. discovery order. -/
def getSortedFiles (scan : List ModuleInfo) : List String :=
  match topologicalSort (buildDependencyGraph scan) with
  | some l => l
  | none => scan.map (·.path)

/-! ## Output assembly -/

def findModule (scan : List ModuleInfo) (p : String) : Option ModuleInfo :=
  scan.find? (fun m => m.path == p)

/-- The per-module portion of `generate_concat_file`: for each file in sorted
order that is a known module, the pair of its provenance path and its
processed content `_process_imports(_summarize_content(content), path)`. -/
def artifactEntries (scan : List ModuleInfo) (level : SummaryLevel) :
    List (String × String) :=
  (getSortedFiles scan).filterMap
    (fun p => (findModule scan p).map
      (fun m => (p, processImports (summarizeContent level m.content))))

/-- `_get_external_imports`: the import strings that do not start with the
string form of any module's parent directory and do not start with a dot,
formatted as `import X` statements and sorted. -/
def getExternalImports (scan : List ModuleInfo) : List String :=
  let collected := (scan.map (·.imports)).flatten
  let kept := collected.filter
    (fun imp =>
      !(scan.any (fun p => strStarts imp (parentDir p.path))) &&
      !(strStarts imp "."))
  List.insertionSort (fun a b => strLe a b = true)
    ((dedupStr kept).map (fun imp => "import " ++ imp))

/-! ## Cycles -/

/-- A (simple or not) directed cycle in the graph: a nonempty node list each
of whose consecutive pairs, including the wrap-around pair, is an edge. -/
def IsCycle (g : DepGraph) (c : List String) : Prop :=
  match c with
  | [] => False
  | a :: l => List.Chain (fun u v => (u, v) ∈ g.edges) a l ∧ (l.getLastD a, a) ∈ g.edges

instance (g : DepGraph) (c : List String) : Decidable (IsCycle g c) := by
  unfold IsCycle
  match c with
  | [] => exact inferInstanceAs (Decidable False)
  | a :: l => exact inferInstanceAs (Decidable (_ ∧ _))

/-! ## Spec-side definitions for refinement comparisons -/

/-- Modelled from the spec: resolution of a relative import takes `n` to be
the number of LEADING dots; if `n` exceeds the depth of the module's
directory below the scan root the import is unresolvable; otherwise ascend
`n` levels and append the dot-stripped remainder (or an index-module path
when the remainder is empty). -/
def specRelCandidate (moduleDir imp : String) : Option String :=
  let leading := (imp.data.takeWhile (fun c => c == '.')).length
  let comps := if moduleDir == "." then [] else splitSlash moduleDir
  if leading > comps.length then none
  else
    let base := comps.take (comps.length - leading)
    let remainder := imp.data.drop leading
    let tailPart :=
      if remainder.isEmpty then "__init__.py"
      else (⟨remainder.map (fun c => if c == '.' then '/' else c)⟩ : String) ++ ".py"
    some (joinWith "/" (base ++ [tailPart]))

/-- Modelled from the spec: an import is external iff it is not relative and
its dotted root is not the top-level directory of any internal module; the
list is emitted sorted, as `import X` statements. -/
def specExternalImports (scan : List ModuleInfo) : List String :=
  let topDirs := scan.filterMap
    (fun m => let cs := splitSlash m.path; if cs.length ≤ 1 then none else cs.head?)
  let collected := (scan.map (·.imports)).flatten
  let kept := collected.filter
    (fun imp =>
      !(strStarts imp ".") &&
      !(topDirs.contains (⟨imp.data.takeWhile (fun c => c != '.')⟩ : String)))
  List.insertionSort (fun a b => strLe a b = true)
    ((dedupStr kept).map (fun imp => "import " ++ imp))

/-! ## Concrete scans used by individual claims -/

def scanC1 : List ModuleInfo :=
  [⟨"a.py", "", [], [], []⟩, ⟨"b.py", "", ["a"], [], []⟩]

def scanC4 : List ModuleInfo :=
  [⟨"pkg/m.py", "", [".sub.helper"], [], []⟩, ⟨"sub/helper.py", "", [], [], []⟩]

def scanC6 : List ModuleInfo :=
  [⟨"a.py", "", ["a"], [], []⟩]

def scanC7 : List ModuleInfo :=
  [⟨"n/x.py", "", ["numpy"], [], []⟩]

/-! ## Claim C5 -/

/-- C5: summarization at level `none` is the identity: `_summarize_content`
returns its input unchanged when the summary level is NONE, for every
string. -/
theorem claim_C5_none_identity (s : String) : summarizeContent .NONE s = s := rfl

/-! ## Claim C9 -/

/-- C9: on every non-string input, `_summarize_content` and
`_process_imports` both fail fast with a type-mismatch error instead of
attempting a best-effort transform, and on every string input neither raises
an error. -/
theorem claim_C9_type_guard (level : SummaryLevel) (v : PyVal) (path : String) :
    (v.isStr = false →
      summarizeContentChecked level v = .error "TypeError" ∧
      processImportsChecked v path = .error "TypeError") ∧
    (v.isStr = true →
      (summarizeContentChecked level v).isOk = true ∧
      (processImportsChecked v path).isOk = true) := by
  cases v with
  | str s => exact ⟨fun h => by simp [PyVal.isStr] at h, fun _ => ⟨rfl, rfl⟩⟩
  | other t => exact ⟨fun _ => ⟨rfl, rfl⟩, fun h => by simp [PyVal.isStr] at h⟩

theorem claim_C9_type_guard_witness :
    ((PyVal.other "list").isStr = false →
      summarizeContentChecked .NONE (.other "list") = .error "TypeError" ∧
      processImportsChecked (.other "list") "m.py" = .error "TypeError") ∧
    ((PyVal.str "x = 1").isStr = true →
      (summarizeContentChecked .NONE (.str "x = 1")).isOk = true ∧
      (processImportsChecked (.str "x = 1") "m.py").isOk = true) :=
  ⟨fun h => (claim_C9_type_guard .NONE (.other "list") "m.py").1 h,
   fun h => (claim_C9_type_guard .NONE (.str "x = 1") "m.py").2 h⟩

/-! ## Claim C1 -/

/-- C1: the claim says that for an import in module M resolving to internal
module T, the edge (T, M) is added and T precedes M in the sorted order.  The
code instead adds (M, T) — `add_edge(file_path, other_path)` — so the
dependency is emitted AFTER its dependent: with `a.py` (no imports) and
`b.py` (importing `a`), the graph holds the edge (b, a), not (a, b), and the
sorted order is `[b.py, a.py]`, dependency last.  This contradicts the
source's own debug message (`Adding edge: {other_rel} -> {current_module}`)
and its comment `Topological sort ensures dependencies come before
dependents`. -/
theorem claim_C1_edge_direction_bug :
    ("b.py", "a.py") ∈ (buildDependencyGraph scanC1).edges ∧
    ("a.py", "b.py") ∉ (buildDependencyGraph scanC1).edges ∧
    getSortedFiles scanC1 = ["b.py", "a.py"] := by decide

/-! ## Claim C2 -/

def scanC2 : List ModuleInfo :=
  [⟨"a.py", "", [], [], []⟩, ⟨"b.py", "", [".a"], [], []⟩,
   ⟨"c.py", "", [".b"], [], []⟩]

/-- C2: for a scan consisting exactly of module `a` (no imports), `b`
(importing `a` via one leading dot) and `c` (importing `b` via one leading
dot), the ordering emitted into the artifact is `a, b, c`, at every
summarization level. -/
theorem claim_C2_scenarioA (level : SummaryLevel) :
    (artifactEntries scanC2 level).map Prod.fst = ["a.py", "b.py", "c.py"] ∧
    getSortedFiles scanC2 = ["a.py", "b.py", "c.py"] := by
  cases level <;> exact ⟨by decide, by decide⟩

/-! ## Claim C4, counterexample -/

/-- C4 counterexample: module `pkg/m.py` contains the relative import
`.sub.helper`; it has one leading dot and `pkg` has depth 1, so per the claim
the candidate `sub/helper.py` is formed and matches an internal module.  The
code instead counts ALL dots (3 here), finds 3 > 1 component, and skips
the import: no candidate, no edge. -/
theorem claim_C4_counterexample :
    specRelCandidate "pkg" ".sub.helper" = some "sub/helper.py" ∧
    "sub/helper.py" ∈ scanC4.map (·.path) ∧
    relTarget "pkg" ".sub.helper" = none ∧
    (buildDependencyGraph scanC4).edges = [] := by decide

/-! ## Claim C6, counterexample -/

/-- C6 counterexample: a single module `a.py` whose import set is `{a}`
yields the self-edge `(a.py, a.py)` — `a.py` ends with the path form `a.py`
of its own absolute import, and the inner matching loop does not exclude
the importing module itself. -/
theorem claim_C6_counterexample :
    ("a.py", "a.py") ∈ (buildDependencyGraph scanC6).edges := by decide

/-! ## Claim C7, counterexample -/

/-- C7 counterexample: the import `numpy`, collected from internal module
`n/x.py`, has dotted root `numpy`, which is not the top-level directory of
any internal module (`n` is), so the claim classifies it external.  The code
instead tests `imp.startswith(parent)` with parent `n`, and `numpy` starts
with `n`, so the import is dropped from the external list. -/
theorem claim_C7_counterexample :
    getExternalImports scanC7 = [] ∧
    specExternalImports scanC7 = ["import numpy"] := by decide

/-! ## Edge characterization of the graph builder -/

theorem edges_addNode (g : DepGraph) (v : String) : (addNode g v).edges = g.edges := by
  unfold addNode; split <;> rfl

theorem mem_edges_addEdge (g : DepGraph) (u v : String) (e : String × String) :
    e ∈ (addEdge g u v).edges ↔ e ∈ g.edges ∨ e = (u, v) := by
  unfold addEdge
  have hn : (addNode (addNode g u) v).edges = g.edges := by
    rw [edges_addNode, edges_addNode]
  dsimp only
  split
  · next hc =>
    rw [hn] at hc ⊢
    have hm : (u, v) ∈ g.edges := by
      have := @List.elem_iff _ _ _ (u, v) g.edges
      simpa [List.contains] using this.mp hc
    constructor
    · exact Or.inl
    · rintro (h | rfl)
      · exact h
      · exact hm
  · rw [hn]
    simp

theorem mem_inner_fold (ms : List ModuleInfo) (dir mp imp : String) (g : DepGraph)
    (e : String × String) :
    e ∈ (ms.foldl
        (fun g other =>
          if impResolves dir imp other.path then addEdge g mp other.path else g)
        g).edges ↔
      e ∈ g.edges ∨ ∃ other ∈ ms, impResolves dir imp other.path = true ∧ e = (mp, other.path) := by
  induction ms generalizing g with
  | nil => simp
  | cons o ms ih =>
    rw [List.foldl_cons, ih]
    by_cases h : impResolves dir imp o.path
    · simp only [h, if_true, mem_edges_addEdge]
      constructor
      · rintro ((he | rfl) | ⟨other, hmem, hres, rfl⟩)
        · exact Or.inl he
        · exact Or.inr ⟨o, by simp, h, rfl⟩
        · exact Or.inr ⟨other, by simp [hmem], hres, rfl⟩
      · rintro (he | ⟨other, hmem, hres, rfl⟩)
        · exact Or.inl (Or.inl he)
        · rcases List.mem_cons.mp hmem with rfl | hmem
          · exact Or.inl (Or.inr rfl)
          · exact Or.inr ⟨other, hmem, hres, rfl⟩
    · simp only [h, if_false]
      constructor
      · rintro (he | ⟨other, hmem, hres, rfl⟩)
        · exact Or.inl he
        · exact Or.inr ⟨other, by simp [hmem], hres, rfl⟩
      · rintro (he | ⟨other, hmem, hres, rfl⟩)
        · exact Or.inl he
        · rcases List.mem_cons.mp hmem with rfl | hmem
          · exact absurd hres (by simp [h])
          · exact Or.inr ⟨other, hmem, hres, rfl⟩

theorem mem_addImportEdges (ms : List ModuleInfo) (m : ModuleInfo) (g : DepGraph)
    (e : String × String) :
    e ∈ (addImportEdges ms m g).edges ↔
      e ∈ g.edges ∨ ∃ imp ∈ m.imports, ∃ other ∈ ms,
        impResolves (parentDir m.path) imp other.path = true ∧ e = (m.path, other.path) := by
  unfold addImportEdges
  generalize m.imports = imps
  induction imps generalizing g with
  | nil => simp
  | cons i is ih =>
    rw [List.foldl_cons, ih, mem_inner_fold]
    constructor
    · rintro ((he | ⟨other, hmem, hres, rfl⟩) | ⟨imp, him, other, hmem, hres, rfl⟩)
      · exact Or.inl he
      · exact Or.inr ⟨i, by simp, other, hmem, hres, rfl⟩
      · exact Or.inr ⟨imp, by simp [him], other, hmem, hres, rfl⟩
    · rintro (he | ⟨imp, him, other, hmem, hres, rfl⟩)
      · exact Or.inl (Or.inl he)
      · rcases List.mem_cons.mp him with rfl | him
        · exact Or.inl (Or.inr ⟨other, hmem, hres, rfl⟩)
        · exact Or.inr ⟨imp, him, other, hmem, hres, rfl⟩

theorem edges_first_pass (scan : List ModuleInfo) (init : DepGraph) :
    (scan.foldl (fun g m => addNode g m.path) init).edges = init.edges := by
  induction scan generalizing init with
  | nil => rfl
  | cons m ms ih => rw [List.foldl_cons, ih, edges_addNode]

/-- Membership in the edge set produced by `build_dependency_graph`: an edge
is present exactly when some scanned module `m` has an import string that
resolves against some scanned module `other`, and the edge is
`(m.path, other.path)` — from the importer to its dependency. -/
theorem mem_buildDependencyGraph_edges (scan : List ModuleInfo) (e : String × String) :
    e ∈ (buildDependencyGraph scan).edges ↔
      ∃ m ∈ scan, ∃ imp ∈ m.imports, ∃ other ∈ scan,
        impResolves (parentDir m.path) imp other.path = true ∧ e = (m.path, other.path) := by
  unfold buildDependencyGraph
  have base : (scan.foldl (fun g m => addNode g m.path) ⟨[], []⟩).edges = [] :=
    edges_first_pass scan ⟨[], []⟩
  generalize hg0 : scan.foldl (fun g m => addNode g m.path) (⟨[], []⟩ : DepGraph) = g0
  rw [hg0] at base
  have main : ∀ (sc : List ModuleInfo) (g : DepGraph),
      e ∈ (sc.foldl (fun g m => addImportEdges scan m g) g).edges ↔
        e ∈ g.edges ∨ ∃ m ∈ sc, ∃ imp ∈ m.imports, ∃ other ∈ scan,
          impResolves (parentDir m.path) imp other.path = true ∧ e = (m.path, other.path) := by
    intro sc
    induction sc with
    | nil => simp
    | cons m ms ih =>
      intro g
      rw [List.foldl_cons, ih, mem_addImportEdges]
      constructor
      · rintro ((he | ⟨imp, him, other, ho, hres, rfl⟩) | ⟨m2, hm2, imp, him, other, ho, hres, rfl⟩)
        · exact Or.inl he
        · exact Or.inr ⟨m, by simp, imp, him, other, ho, hres, rfl⟩
        · exact Or.inr ⟨m2, by simp [hm2], imp, him, other, ho, hres, rfl⟩
      · rintro (he | ⟨m2, hm2, imp, him, other, ho, hres, rfl⟩)
        · exact Or.inl (Or.inl he)
        · rcases List.mem_cons.mp hm2 with rfl | hm2
          · exact Or.inl (Or.inr ⟨imp, him, other, ho, hres, rfl⟩)
          · exact Or.inr ⟨m2, hm2, imp, him, other, ho, hres, rfl⟩
  rw [main scan g0, base]
  simp

/-- Path-based lookup in a scan with no duplicate paths is injective. -/
theorem eq_of_path_eq (scan : List ModuleInfo) (hnd : (scan.map (·.path)).Nodup)
    {m n : ModuleInfo} (hm : m ∈ scan) (hn : n ∈ scan) (h : m.path = n.path) : m = n :=
  List.inj_on_of_nodup_map hnd hm hn h

theorem relTarget_eq_none (moduleDir imp : String)
    (h : imp.data.count '.' > (splitSlash moduleDir).length) :
    relTarget moduleDir imp = none := by
  unfold relTarget
  dsimp only
  rw [if_pos h]

theorem impResolves_rel (dir imp t : String) (hs : strStarts imp "." = true) :
    impResolves dir imp t =
      (match relTarget dir imp with
       | none => false
       | some full => t == full) := by
  unfold impResolves
  rw [if_pos hs]

/-! ## Claim C4, amended -/

/-- C4 amended: resolution takes `n` to be the TOTAL number of dots in
the import string (leading and interior); if `n` exceeds the number of
`/`-components of the module's directory string (the scan root itself
counting as the single component `.`), the import is skipped with no edge and
no error; otherwise the candidate target path is formed by dropping the last
`n` components and appending the dot-stripped remainder with dots replaced by
path separators (or an index-module path when the remainder is empty), and an
edge is added exactly for the modules whose relative path equals the
candidate. -/
theorem claim_C4_amended_dotcount (scan : List ModuleInfo) (M : ModuleInfo) (imp : String)
    (hM : M ∈ scan) (him : M.imports = [imp]) (hrel : strStarts imp "." = true)
    (hothers : ∀ N ∈ scan, N.path ≠ M.path → N.imports = [])
    (hnd : (scan.map (·.path)).Nodup) :
    (imp.data.count '.' > (splitSlash (parentDir M.path)).length →
        (buildDependencyGraph scan).edges = []) ∧
    (∀ full, relTarget (parentDir M.path) imp = some full →
        ∀ T ∈ scan, ((M.path, T.path) ∈ (buildDependencyGraph scan).edges ↔ T.path = full)) := by
  constructor
  · intro hskip
    have hnone : relTarget (parentDir M.path) imp = none := relTarget_eq_none _ _ hskip
    rw [List.eq_nil_iff_forall_not_mem]
    intro e he
    rw [mem_buildDependencyGraph_edges] at he
    obtain ⟨m, hm, imp2, him2, other, ho, hres, rfl⟩ := he
    by_cases hpm : m.path = M.path
    · have hmM : m = M := eq_of_path_eq scan hnd hm hM hpm
      subst hmM
      rw [him] at him2
      simp only [List.mem_singleton] at him2
      subst him2
      rw [impResolves_rel _ _ _ hrel, hnone] at hres
      simp at hres
    · rw [hothers m hm hpm] at him2
      simp at him2
  · intro full hfull T hT
    constructor
    · intro he
      rw [mem_buildDependencyGraph_edges] at he
      obtain ⟨m, hm, imp2, him2, other, ho, hres, heq⟩ := he
      injection heq with h1 h2
      have hmM : m = M := eq_of_path_eq scan hnd hm hM h1.symm
      subst hmM
      rw [him] at him2
      simp only [List.mem_singleton] at him2
      subst him2
      rw [impResolves_rel _ _ _ hrel, hfull] at hres
      simp only [beq_iff_eq] at hres
      rw [h2, hres]
    · intro hTfull
      rw [mem_buildDependencyGraph_edges]
      refine ⟨M, hM, imp, by rw [him]; simp, T, hT, ?_, rfl⟩
      rw [impResolves_rel _ _ _ hrel, hfull]
      simp [hTfull]

def scanC4w : List ModuleInfo :=
  [⟨"p/q/r/m.py", "", ["..x"], [], []⟩, ⟨"p/x.py", "", [], [], []⟩]

theorem claim_C4_amended_witness :
    ("p/q/r/m.py", "p/x.py") ∈ (buildDependencyGraph scanC4w).edges :=
  ((claim_C4_amended_dotcount scanC4w ⟨"p/q/r/m.py", "", ["..x"], [], []⟩ "..x"
      (by decide) (by decide) (by decide) (by decide) (by decide)).2
    "p/x.py" (by decide) ⟨"p/x.py", "", [], [], []⟩ (by decide)).mpr (by decide)

/-! ## Claim C6, amended -/

/-- C6 amended: after `build_dependency_graph`, the graph has no self-edge
`(M, M)` for any module `M` none of whose own import strings resolves, under
the builder's rules, to `M`'s own path.  (A module with a self-referential
self-import — e.g. `a.py` containing `import a` — does get a self-edge; only the
tool's own file is excluded a priori.) -/
theorem claim_C6_amended_no_self_edge (scan : List ModuleInfo)
    (hnd : (scan.map (·.path)).Nodup) (M : ModuleInfo) (hM : M ∈ scan)
    (hself : ∀ imp ∈ M.imports, impResolves (parentDir M.path) imp M.path = false) :
    (M.path, M.path) ∉ (buildDependencyGraph scan).edges := by
  intro he
  rw [mem_buildDependencyGraph_edges] at he
  obtain ⟨m, hm, imp, him, other, ho, hres, heq⟩ := he
  injection heq with h1 h2
  have hmM : m = M := eq_of_path_eq scan hnd hm hM h1.symm
  subst hmM
  rw [← h2] at hres
  exact absurd hres (by rw [hself imp him]; simp)

def scanC6w : List ModuleInfo :=
  [⟨"a.py", "", ["b"], [], []⟩, ⟨"b.py", "", [], [], []⟩]

theorem claim_C6_amended_witness :
    ("a.py", "a.py") ∉ (buildDependencyGraph scanC6w).edges :=
  claim_C6_amended_no_self_edge scanC6w (by decide) ⟨"a.py", "", ["b"], [], []⟩
    (by decide) (by decide)

/-! ## Claim C7, amended -/

theorem charListLe_head_le {y z : Char} {ys zs : List Char}
    (h : charListLe (y :: ys) (z :: zs) = true) : y.toNat ≤ z.toNat := by
  by_cases h1 : y.toNat < z.toNat
  · omega
  · by_cases h2 : z.toNat < y.toNat
    · simp [charListLe, h1, h2] at h
    · omega

theorem charListLe_total (a : List Char) : ∀ b, charListLe a b = true ∨ charListLe b a = true := by
  induction a with
  | nil => intro b; left; rfl
  | cons x xs ih =>
    intro b
    cases b with
    | nil => right; rfl
    | cons y ys =>
      rcases Nat.lt_trichotomy x.toNat y.toNat with h1 | h1 | h1
      · left; simp [charListLe, h1]
      · have h2 : ¬ x.toNat < y.toNat := by omega
        have h3 : ¬ y.toNat < x.toNat := by omega
        rcases ih ys with h | h
        · left; simp [charListLe, h2, h3, h]
        · right; simp [charListLe, h2, h3, h]
      · right; simp [charListLe, h1]

theorem charListLe_trans (a : List Char) :
    ∀ b c, charListLe a b = true → charListLe b c = true → charListLe a c = true := by
  induction a with
  | nil => intros; rfl
  | cons x xs ih =>
    intro b c hab hbc
    cases b with
    | nil => simp [charListLe] at hab
    | cons y ys =>
      cases c with
      | nil => simp [charListLe] at hbc
      | cons z zs =>
        have hxy : x.toNat ≤ y.toNat := charListLe_head_le hab
        have hyz : y.toNat ≤ z.toNat := charListLe_head_le hbc
        by_cases h1 : x.toNat < z.toNat
        · simp [charListLe, h1]
        · have hxz : x.toNat = z.toNat := by omega
          have hxyeq : x.toNat = y.toNat := by omega
          have hyzeq : y.toNat = z.toNat := by omega
          have hab2 : charListLe xs ys = true := by
            simpa [charListLe, hxyeq] using hab
          have hbc2 : charListLe ys zs = true := by
            simpa [charListLe, hyzeq] using hbc
          simpa [charListLe, hxz] using ih ys zs hab2 hbc2

instance : IsTotal String (fun a b => strLe a b = true) :=
  ⟨fun a b => charListLe_total a.data b.data⟩

instance : IsTrans String (fun a b => strLe a b = true) :=
  ⟨fun a b c => charListLe_trans a.data b.data c.data⟩

theorem mem_dedupStr (a : String) (l : List String) : a ∈ dedupStr l ↔ a ∈ l := by
  induction l with
  | nil => simp [dedupStr]
  | cons x xs ih =>
    by_cases h : xs.contains x
    · have hx : x ∈ xs := by
        have := @List.elem_iff _ _ _ x xs
        simpa [List.contains] using this.mp h
      simp only [dedupStr, h, if_true, ih, List.mem_cons]
      constructor
      · exact Or.inr
      · rintro (rfl | h')
        · exact hx
        · exact h'
    · have h2 : xs.contains x = false := by simpa using h
      simp only [dedupStr, h2, Bool.false_eq_true, if_false, List.mem_cons, ih]

/-- C7 amended: an import string collected from a scanned module is listed
among the artifact's external imports iff it does not begin with a dot and it
does not begin (as a raw string prefix) with the string form of the parent
directory, relative to the scan root, of ANY internal module; the emitted
list of `import X` statements is sorted lexicographically by code points. -/
theorem claim_C7_amended_classification (scan : List ModuleInfo) (s : String) :
    (s ∈ getExternalImports scan ↔
      ∃ imp, (∃ M ∈ scan, imp ∈ M.imports) ∧ strStarts imp "." = false ∧
        (∀ P ∈ scan, strStarts imp (parentDir P.path) = false) ∧
        s = "import " ++ imp) ∧
    (getExternalImports scan).Sorted (fun a b => strLe a b = true) := by
  constructor
  · unfold getExternalImports
    dsimp only
    rw [List.mem_insertionSort, List.mem_map]
    constructor
    · rintro ⟨imp, himp, rfl⟩
      rw [mem_dedupStr, List.mem_filter] at himp
      obtain ⟨hcol, hpred⟩ := himp
      rw [List.mem_flatten] at hcol
      simp only [List.mem_map] at hcol
      obtain ⟨l, ⟨M, hM, rfl⟩, himp⟩ := hcol
      rw [Bool.and_eq_true, Bool.not_eq_true', Bool.not_eq_true'] at hpred
      obtain ⟨hany, hdot⟩ := hpred
      rw [List.any_eq_false] at hany
      exact ⟨imp, ⟨M, hM, himp⟩, hdot, fun P hP => by simpa using hany P hP, rfl⟩
    · rintro ⟨imp, ⟨M, hM, himp⟩, hdot, hall, rfl⟩
      refine ⟨imp, ?_, rfl⟩
      rw [mem_dedupStr, List.mem_filter]
      refine ⟨?_, ?_⟩
      · rw [List.mem_flatten]
        exact ⟨M.imports, List.mem_map.mpr ⟨M, hM, rfl⟩, himp⟩
      · rw [Bool.and_eq_true, Bool.not_eq_true', Bool.not_eq_true']
        exact ⟨List.any_eq_false.mpr (fun x hx => by simp [hall x hx]), hdot⟩
  · unfold getExternalImports
    dsimp only
    exact List.sorted_insertionSort _ _

/-! ## Claim C3: cycle fallback -/

theorem nodes_addNode_mono (g : DepGraph) (v x : String) (h : x ∈ g.nodes) :
    x ∈ (addNode g v).nodes := by
  unfold addNode; split
  · exact h
  · simp [h]

theorem self_mem_addNode (g : DepGraph) (v : String) : v ∈ (addNode g v).nodes := by
  unfold addNode; split
  · next h =>
    have := @List.elem_iff _ _ _ v g.nodes
    simpa [List.contains] using this.mp h
  · simp

theorem nodes_addEdge_mono (g : DepGraph) (u v x : String) (h : x ∈ g.nodes) :
    x ∈ (addEdge g u v).nodes := by
  unfold addEdge
  dsimp only
  split
  · exact nodes_addNode_mono _ _ _ (nodes_addNode_mono _ _ _ h)
  · exact nodes_addNode_mono _ _ _ (nodes_addNode_mono _ _ _ h)

theorem nodes_addImportEdges_mono (ms : List ModuleInfo) (m : ModuleInfo) (g : DepGraph)
    (x : String) (h : x ∈ g.nodes) : x ∈ (addImportEdges ms m g).nodes := by
  unfold addImportEdges
  generalize m.imports = imps
  induction imps generalizing g with
  | nil => exact h
  | cons i is ih =>
    rw [List.foldl_cons]
    apply ih
    clear ih
    induction ms generalizing g with
    | nil => exact h
    | cons o ms ih2 =>
      rw [List.foldl_cons]
      apply ih2
      split
      · exact nodes_addEdge_mono _ _ _ _ h
      · exact h

theorem nodes_fold_addNode_mono (sc : List ModuleInfo) (init : DepGraph) (x : String)
    (h : x ∈ init.nodes) :
    x ∈ (sc.foldl (fun g m => addNode g m.path) init).nodes := by
  induction sc generalizing init with
  | nil => exact h
  | cons m ms ih => exact ih _ (nodes_addNode_mono _ _ _ h)

theorem mem_nodes_fold_addNode (sc : List ModuleInfo) (init : DepGraph) (m : ModuleInfo)
    (hm : m ∈ sc) :
    m.path ∈ (sc.foldl (fun g m => addNode g m.path) init).nodes := by
  induction sc generalizing init with
  | nil => simp at hm
  | cons a ms ih =>
    rcases List.mem_cons.mp hm with rfl | hm
    · exact nodes_fold_addNode_mono ms _ _ (self_mem_addNode init m.path)
    · exact ih _ hm

theorem nodes_fold_addImport_mono (sc ms : List ModuleInfo) (g0 : DepGraph) (x : String)
    (h : x ∈ g0.nodes) :
    x ∈ (sc.foldl (fun g m => addImportEdges ms m g) g0).nodes := by
  induction sc generalizing g0 with
  | nil => exact h
  | cons a tl ih => exact ih _ (nodes_addImportEdges_mono _ _ _ _ h)

theorem mem_nodes_buildGraph (scan : List ModuleInfo) (m : ModuleInfo) (hm : m ∈ scan) :
    m.path ∈ (buildDependencyGraph scan).nodes := by
  unfold buildDependencyGraph
  exact nodes_fold_addImport_mono scan scan _ _ (mem_nodes_fold_addNode scan _ m hm)

theorem chain_pred {R : String → String → Prop} (a : String) (l : List String)
    (hch : List.Chain R a l) : ∀ x ∈ l, ∃ u ∈ a :: l, R u x := by
  induction l generalizing a with
  | nil => intro x hx; simp at hx
  | cons b l ih =>
    rw [List.chain_cons] at hch
    obtain ⟨hab, hch⟩ := hch
    intro x hx
    rcases List.mem_cons.mp hx with rfl | hx
    · exact ⟨a, by simp, hab⟩
    · obtain ⟨u, hu, hr⟩ := ih b hch x hx
      refine ⟨u, ?_, hr⟩
      rcases List.mem_cons.mp hu with rfl | hu
      · simp
      · simp [hu]

theorem getLastD_mem_cons (l : List String) (a : String) : l.getLastD a ∈ a :: l := by
  induction l generalizing a with
  | nil => simp [List.getLastD]
  | cons b l ih =>
    rw [List.getLastD_cons]
    rcases List.mem_cons.mp (ih b) with h | h
    · rw [h]
      simp
    · exact List.mem_cons_of_mem _ (List.mem_cons_of_mem _ h)

theorem cycle_pred (g : DepGraph) (c : List String) (hc : IsCycle g c) :
    ∀ x ∈ c, ∃ u ∈ c, (u, x) ∈ g.edges := by
  match c with
  | [] => exact absurd hc (by simp [IsCycle])
  | a :: l =>
    obtain ⟨hch, hcl⟩ := hc
    intro x hx
    rcases List.mem_cons.mp hx with rfl | hx
    · exact ⟨l.getLastD x, getLastD_mem_cons l x, hcl⟩
    · exact chain_pred a l hch x hx

theorem kahnAux_none_of_cycle (edges : List (String × String)) (c : List String)
    (hcne : c ≠ []) (hpred : ∀ x ∈ c, ∃ u ∈ c, (u, x) ∈ edges) :
    ∀ (fuel : Nat) (remaining : List String), (∀ x ∈ c, x ∈ remaining) →
      kahnAux edges fuel remaining = none := by
  have hne : ∀ remaining : List String, (∀ x ∈ c, x ∈ remaining) →
      remaining.isEmpty = false := by
    intro remaining hsub
    obtain ⟨x, hx⟩ := List.exists_mem_of_ne_nil c hcne
    have := hsub x hx
    cases remaining
    · simp at this
    · rfl
  intro fuel
  induction fuel with
  | zero =>
    intro remaining hsub
    unfold kahnAux
    rw [hne remaining hsub]
    rfl
  | succ fuel ih =>
    intro remaining hsub
    unfold kahnAux
    rw [hne remaining hsub]
    dsimp only
    by_cases hr : (remaining.filter (fun v => !(hasIncoming edges remaining v))).isEmpty = true
    · rw [if_pos hr]
      rfl
    · rw [if_neg hr]
      have hsub2 : ∀ x ∈ c,
          x ∈ remaining.filter
            (fun v => !((remaining.filter (fun v => !(hasIncoming edges remaining v))).contains v)) := by
        intro x hx
        rw [List.mem_filter]
        refine ⟨hsub x hx, ?_⟩
        rw [Bool.not_eq_true']
        by_contra habs
        rw [Bool.not_eq_false] at habs
        have hxready : x ∈ remaining.filter (fun v => !(hasIncoming edges remaining v)) := by
          have := @List.elem_iff _ _ _ x
            (remaining.filter (fun v => !(hasIncoming edges remaining v)))
          simpa [List.contains] using this.mp habs
        rw [List.mem_filter] at hxready
        obtain ⟨hxr, hnoin⟩ := hxready
        rw [Bool.not_eq_true'] at hnoin
        obtain ⟨u, hu, he⟩ := hpred x hx
        have : hasIncoming edges remaining x = true := by
          unfold hasIncoming
          rw [List.any_eq_true]
          refine ⟨u, hsub u hu, ?_⟩
          have := @List.elem_iff _ _ _ (u, x) edges
          simpa [List.contains] using this.mpr he
        rw [this] at hnoin
        exact absurd hnoin (by simp)
      rw [ih _ hsub2]
      rfl

theorem findModule_isSome (scan : List ModuleInfo) (p : String)
    (h : p ∈ scan.map (·.path)) : (findModule scan p).isSome = true := by
  obtain ⟨m, hm, rfl⟩ := List.mem_map.mp h
  unfold findModule
  rw [List.find?_isSome]
  exact ⟨m, hm, by simp⟩

theorem artifact_fst_of_all_found (ps : List String) (scan : List ModuleInfo)
    (level : SummaryLevel) (h : ∀ p ∈ ps, (findModule scan p).isSome = true) :
    (ps.filterMap (fun p => (findModule scan p).map
      (fun m => (p, processImports (summarizeContent level m.content))))).map Prod.fst = ps := by
  induction ps with
  | nil => rfl
  | cons p ps ih =>
    have hp := h p (by simp)
    obtain ⟨m, hm⟩ := Option.isSome_iff_exists.mp hp
    rw [List.filterMap_cons, hm]
    simp only [Option.map_some']
    rw [List.map_cons]
    rw [ih (fun q hq => h q (by simp [hq]))]

/-- C3: whenever the dependency graph contains a cycle, the run still
completes: `_get_sorted_files` falls back to discovery order (the order the
modules were scanned), and the emitted artifact lists every scanned module
exactly once — no omission, no duplication, at every summarization level. -/
theorem claim_C3_cycle_fallback (scan : List ModuleInfo) (level : SummaryLevel)
    (hnd : (scan.map (·.path)).Nodup)
    (hcyc : ∃ c, IsCycle (buildDependencyGraph scan) c) :
    getSortedFiles scan = scan.map (·.path) ∧
    (artifactEntries scan level).map Prod.fst = scan.map (·.path) ∧
    ∀ p ∈ scan.map (·.path), ((artifactEntries scan level).map Prod.fst).count p = 1 := by
  obtain ⟨c, hc⟩ := hcyc
  have hcne : c ≠ [] := by
    cases c
    · exact absurd hc (by simp [IsCycle])
    · simp
  have hpred := cycle_pred _ _ hc
  have hsubn : ∀ x ∈ c, x ∈ (buildDependencyGraph scan).nodes := by
    intro x hx
    obtain ⟨u, hu, he⟩ := hpred x hx
    rw [mem_buildDependencyGraph_edges] at he
    obtain ⟨m, hm, imp, him, other, ho, hres, heq⟩ := he
    injection heq with h1 h2
    rw [h2]
    exact mem_nodes_buildGraph scan other ho
  have hsort : topologicalSort (buildDependencyGraph scan) = none :=
    kahnAux_none_of_cycle _ c hcne hpred _ _ hsubn
  have hgs : getSortedFiles scan = scan.map (·.path) := by
    unfold getSortedFiles
    rw [hsort]
  have hfst : (artifactEntries scan level).map Prod.fst = scan.map (·.path) := by
    unfold artifactEntries
    rw [hgs]
    exact artifact_fst_of_all_found _ scan level (fun p hp => findModule_isSome scan p hp)
  refine ⟨hgs, hfst, ?_⟩
  intro p hp
  rw [hfst]
  exact List.count_eq_one_of_mem hnd hp

def scanC3w : List ModuleInfo :=
  [⟨"a.py", "", ["b"], [], []⟩, ⟨"b.py", "", ["a"], [], []⟩]

theorem claim_C3_cycle_fallback_witness :
    getSortedFiles scanC3w = ["a.py", "b.py"] ∧
    (artifactEntries scanC3w .NONE).map Prod.fst = ["a.py", "b.py"] := by
  have h := claim_C3_cycle_fallback scanC3w .NONE (by decide)
    ⟨["a.py", "b.py"], List.Chain.cons (by decide) List.Chain.nil, by decide⟩
  exact ⟨h.1, h.2.1⟩


/-! ## Claim C10: relative-import neutralization in the artifact -/

/-- Split into lines at newline characters (Python `str.split(chr(10))`). -/
def linesOf : List Char → List (List Char)
  | [] => [[]]
  | c :: cs =>
    if c == '\n' then [] :: linesOf cs
    else
      match linesOf cs with
      | [] => [[c]]
      | l :: ls => (c :: l) :: ls

theorem linesOf_ne_nil (cs : List Char) : linesOf cs ≠ [] := by
  cases cs with
  | nil => simp [linesOf]
  | cons c cs =>
    unfold linesOf
    by_cases h : (c == '\n') = true
    · simp [h]
    · simp only [h, Bool.false_eq_true, if_false]
      cases linesOf cs <;> simp

theorem linesOf_cons_nl (cs : List Char) : linesOf ('\n' :: cs) = [] :: linesOf cs := by
  simp [linesOf]

theorem linesOf_cons_ne (c : Char) (cs : List Char) (h : (c == '\n') = false) :
    linesOf (c :: cs) = (c :: (linesOf cs).headD []) :: (linesOf cs).tail := by
  cases hl : linesOf cs with
  | nil => exact absurd hl (linesOf_ne_nil cs)
  | cons l ls =>
    have hL : linesOf (c :: cs) = (c :: l) :: ls := by
      unfold linesOf
      rw [if_neg (by simp [h]), hl]
    rw [hL]
    simp

theorem linesOf_head_decomp (cs : List Char) :
    ∃ t, cs = (linesOf cs).headD [] ++ t ∧ (t = [] ∨ ∃ r, t = '\n' :: r) := by
  induction cs with
  | nil => exact ⟨[], by simp [linesOf], Or.inl rfl⟩
  | cons c cs ih =>
    by_cases h : (c == '\n') = true
    · have hc : c = '\n' := by simpa using h
      subst hc
      exact ⟨'\n' :: cs, by simp [linesOf_cons_nl], Or.inr ⟨cs, rfl⟩⟩
    · obtain ⟨t, hdec, hsh⟩ := ih
      rw [linesOf_cons_ne c cs (by simpa using h)]
      refine ⟨t, ?_, hsh⟩
      simp only [List.headD_cons, List.cons_append]
      rw [← hdec]

theorem litP_spec {pat cs r : List Char} (h : litP pat cs = some r) :
    pat ++ r = cs ∧ r.length + pat.length = cs.length := by
  unfold litP at h
  split at h
  · next hp =>
    injection h with h
    subst h
    obtain ⟨t, ht⟩ := List.isPrefixOf_iff_prefix.mp hp
    constructor
    · rw [← ht, List.drop_left]
    · rw [← ht, List.drop_left]
      simp [Nat.add_comm]
  · exact absurd h (by simp)

theorem wsPlus_spec {cs r : List Char} (h : wsPlus cs = some r) :
    r <:+ cs ∧ r.length < cs.length := by
  cases cs with
  | nil => exact absurd h (by simp [wsPlus])
  | cons c rest =>
    unfold wsPlus at h
    dsimp only at h
    split at h
    · injection h with h
      subst h
      constructor
      · exact (List.dropWhile_suffix _).trans (List.suffix_cons c rest)
      · have := dropWhile_len_le isPySpace rest
        simp only [List.length_cons]
        omega
    · exact absurd h (by simp)

theorem suffix_take_decomp {rest cs : List Char} (h : rest <:+ cs) :
    cs.take (cs.length - rest.length) ++ rest = cs := by
  obtain ⟨pre, hpre⟩ := h
  rw [← hpre]
  rw [@List.take_left' _ pre rest _ (by simp)]

theorem tryRel_spec {cs m rest : List Char} (h : tryRel cs = some (m, rest)) :
    m ++ rest = cs ∧ rest.length + 4 ≤ cs.length := by
  unfold tryRel at h
  cases h1 : litP "from".data (cs.dropWhile isPySpace) with
  | none => rw [h1] at h; exact absurd h (by simp)
  | some r2 =>
    rw [h1] at h
    dsimp only at h
    cases h2 : wsPlus r2 with
    | none => rw [h2] at h; exact absurd h (by simp)
    | some r3 =>
      rw [h2] at h
      dsimp only at h
      cases h3 : litP ['.'] r3 with
      | none => rw [h3] at h; exact absurd h (by simp)
      | some r4 =>
        rw [h3] at h
        dsimp only at h
        simp only [Option.some.injEq, Prod.mk.injEq] at h
        obtain ⟨hm, hr⟩ := h
        subst hr
        subst hm
        have s1 : cs.dropWhile isPySpace <:+ cs := List.dropWhile_suffix _
        obtain ⟨e1, l1⟩ := litP_spec h1
        obtain ⟨s2v, l2⟩ := wsPlus_spec h2
        obtain ⟨e3, l3⟩ := litP_spec h3
        have s2 : r2 <:+ cs.dropWhile isPySpace := ⟨"from".data, e1⟩
        have s3 : r4 <:+ r3 := ⟨['.'], e3⟩
        have s4 : r4.dropWhile (fun c => c != '\n') <:+ r4 := List.dropWhile_suffix _
        have hsufrest : r4.dropWhile (fun c => c != '\n') <:+ cs :=
          s4.trans (s3.trans (s2v.trans (s2.trans s1)))
        refine ⟨suffix_take_decomp hsufrest, ?_⟩
        have d1 : (cs.dropWhile isPySpace).length ≤ cs.length := s1.length_le
        have d4 : (r4.dropWhile (fun c => c != '\n')).length ≤ r4.length :=
          dropWhile_len_le _ _
        have hfl : ("from".data.length) = 4 := rfl
        have hdl : (['.'] : List Char).length = 1 := rfl
        omega

theorem tryRel_extend {L : List Char} (t : List Char) (hL : (tryRel L).isSome = true) :
    (tryRel (L ++ t)).isSome = true := by
  unfold tryRel at hL ⊢
  cases h1 : litP "from".data (L.dropWhile isPySpace) with
  | none => rw [h1] at hL; simp at hL
  | some r2 =>
    rw [h1] at hL
    dsimp only at hL
    cases h2 : wsPlus r2 with
    | none => rw [h2] at hL; simp at hL
    | some r3 =>
      rw [h2] at hL
      dsimp only at hL
      cases h3 : litP ['.'] r3 with
      | none => rw [h3] at hL; simp at hL
      | some r4 =>
        obtain ⟨e1, l1⟩ := litP_spec h1
        obtain ⟨e3, l3⟩ := litP_spec h3
        have hd : (L ++ t).dropWhile isPySpace = L.dropWhile isPySpace ++ t := by
          rw [List.dropWhile_append, if_neg]
          rw [← e1]
          simp
        have h1x : litP "from".data (L.dropWhile isPySpace ++ t) = some (r2 ++ t) := by
          unfold litP
          rw [← e1, List.append_assoc,
            if_pos (List.isPrefixOf_iff_prefix.mpr ⟨r2 ++ t, rfl⟩), List.drop_left]
        have h2x : wsPlus (r2 ++ t) = some (r3 ++ t) := by
          cases r2 with
          | nil => exact absurd h2 (by simp [wsPlus])
          | cons c rr =>
            unfold wsPlus at h2
            dsimp only at h2
            split at h2
            · next hws =>
              injection h2 with h2
              have hne : (List.dropWhile isPySpace rr).isEmpty = false := by
                rw [h2, ← e3]
                simp
              show wsPlus (c :: (rr ++ t)) = some (r3 ++ t)
              unfold wsPlus
              dsimp only
              rw [if_pos hws, List.dropWhile_append, hne]
              simp only [Bool.false_eq_true, if_false]
              rw [h2]
            · exact absurd h2 (by simp)
        have h3x : litP ['.'] (r3 ++ t) = some (r4 ++ t) := by
          unfold litP
          rw [← e3, List.append_assoc,
            if_pos (List.isPrefixOf_iff_prefix.mpr ⟨r4 ++ t, rfl⟩)]
          rw [List.drop_left]
        rw [hd, h1x]
        dsimp only
        rw [h2x]
        dsimp only
        rw [h3x]
        simp

theorem replRel_len (m : List Char) : m.length + 25 ≤ (replRel m).length := by
  unfold replRel
  have h1 : ("\"\"\"RELATIVE_IMPORT: \n").data.length = 21 := rfl
  have h2 : ("\"\"\"").data.length = 3 := rfl
  simp only [List.length_append, List.length_cons, List.length_replicate, h1, h2]
  omega

theorem procAuxF_step_none (f : Nat) (c : Char) (cs : List Char)
    (h : tryRel (c :: cs) = none) :
    procAuxF (f + 1) true (c :: cs) = c :: procAuxF f (c == '\n') cs := by
  simp [procAuxF, h]

theorem procAuxF_step_some (f : Nat) (c : Char) (cs m rest : List Char)
    (h : tryRel (c :: cs) = some (m, rest)) :
    procAuxF (f + 1) true (c :: cs) = replRel m ++ procAuxF f false rest := by
  simp [procAuxF, h]

theorem procAuxF_step_false (f : Nat) (c : Char) (cs : List Char) :
    procAuxF (f + 1) false (c :: cs) = c :: procAuxF f (c == '\n') cs := by
  simp [procAuxF]

theorem procAuxF_len_ge : ∀ (fuel : Nat) (b : Bool) (cs : List Char),
    cs.length ≤ (procAuxF fuel b cs).length := by
  intro fuel
  induction fuel with
  | zero => intro b cs; simp [procAuxF]
  | succ f ih =>
    intro b cs
    cases cs with
    | nil => simp [procAuxF]
    | cons c cs =>
      cases b with
      | false =>
        rw [procAuxF_step_false]
        simp only [List.length_cons]
        exact Nat.succ_le_succ (ih _ _)
      | true =>
        cases ht : tryRel (c :: cs) with
        | none =>
          rw [procAuxF_step_none f c cs ht]
          simp only [List.length_cons]
          exact Nat.succ_le_succ (ih _ _)
        | some pr =>
          obtain ⟨m, rest⟩ := pr
          rw [procAuxF_step_some f c cs m rest ht]
          obtain ⟨hsplit, hlen⟩ := tryRel_spec ht
          have h1 := replRel_len m
          have h2 := ih false rest
          have h3 : (c :: cs).length = m.length + rest.length := by
            rw [← hsplit]; simp
          simp only [List.length_append]
          omega

theorem procAuxF_id_or_marker : ∀ (fuel : Nat) (b : Bool) (cs : List Char),
    procAuxF fuel b cs = cs ∨ ("RELATIVE_IMPORT".data <:+: procAuxF fuel b cs) := by
  intro fuel
  induction fuel with
  | zero => intro b cs; exact Or.inl (by simp [procAuxF])
  | succ f ih =>
    intro b cs
    cases cs with
    | nil => exact Or.inl (by simp [procAuxF])
    | cons c cs =>
      have hstep : ∀ b2, procAuxF (f + 1) b (c :: cs) = c :: procAuxF f b2 cs →
          procAuxF (f + 1) b (c :: cs) = c :: cs ∨
            ("RELATIVE_IMPORT".data <:+: procAuxF (f + 1) b (c :: cs)) := by
        intro b2 he
        rcases ih b2 cs with h | h
        · exact Or.inl (by rw [he, h])
        · refine Or.inr ?_
          rw [he]
          exact h.trans (List.suffix_cons c _).isInfix
      cases b with
      | false => exact hstep (c == '\n') (procAuxF_step_false f c cs)
      | true =>
        cases ht : tryRel (c :: cs) with
        | none => exact hstep (c == '\n') (procAuxF_step_none f c cs ht)
        | some pr =>
          obtain ⟨m, rest⟩ := pr
          refine Or.inr ?_
          rw [procAuxF_step_some f c cs m rest ht]
          have hin : "RELATIVE_IMPORT".data <:+: replRel m := by
            have hdec : ("\"\"\"RELATIVE_IMPORT: \n").data =
                ("\"\"\"").data ++ "RELATIVE_IMPORT".data ++ (": \n").data := rfl
            unfold replRel
            refine ⟨List.replicate (m.length - (m.dropWhile isPySpace).length) ' ' ++
              ("\"\"\"").data, (": \n").data ++ (m ++ '\n' ::
                (List.replicate (m.length - (m.dropWhile isPySpace).length) ' ' ++
                  ("\"\"\"").data)), ?_⟩
            rw [hdec]
            simp [List.append_assoc]
          exact hin.trans (List.prefix_append _ _).isInfix

theorem procAuxF_strict : ∀ (fuel : Nat) (cs : List Char) (b : Bool),
    cs.length ≤ fuel →
    (∃ L ∈ (if b then linesOf cs else (linesOf cs).tail), (tryRel L).isSome = true) →
    cs.length < (procAuxF fuel b cs).length := by
  have hnil : ∀ (b : Bool),
      ¬ (∃ L ∈ (if b then linesOf ([] : List Char) else (linesOf ([] : List Char)).tail),
        (tryRel L).isSome = true) := by
    intro b h
    obtain ⟨L, hL, hsome⟩ := h
    cases b with
    | true =>
      simp only [if_true, linesOf] at hL
      rw [List.mem_singleton] at hL
      subst hL
      exact absurd hsome (by decide)
    | false =>
      simp [linesOf] at hL
  intro fuel
  induction fuel with
  | zero =>
    intro cs b hf h
    have hcs : cs = [] := List.length_eq_zero.mp (Nat.le_zero.mp hf)
    subst hcs
    exact absurd h (hnil b)
  | succ f ih =>
    intro cs b hf h
    cases cs with
    | nil => exact absurd h (hnil b)
    | cons c cs =>
      have hf2 : cs.length ≤ f := by
        simp only [List.length_cons] at hf
        omega
      cases b with
      | true =>
        cases ht : tryRel (c :: cs) with
        | some pr =>
          obtain ⟨m, rest⟩ := pr
          rw [procAuxF_step_some f c cs m rest ht]
          obtain ⟨hsplit, hlen⟩ := tryRel_spec ht
          have h1 := replRel_len m
          have h2 := procAuxF_len_ge f false rest
          have h3 : (c :: cs).length = m.length + rest.length := by
            rw [← hsplit]; simp
          simp only [List.length_append]
          omega
        | none =>
          rw [procAuxF_step_none f c cs ht]
          obtain ⟨L, hL, hsome⟩ := h
          rw [if_pos rfl] at hL
          by_cases hc : (c == '\n') = true
          · have hceq : c = '\n' := by simpa using hc
            subst hceq
            rw [linesOf_cons_nl] at hL
            rcases List.mem_cons.mp hL with rfl | hL
            · exact absurd hsome (by decide)
            · have hrec := ih cs true hf2 ⟨L, by simpa using hL, hsome⟩
              simp only [List.length_cons, hc]
              omega
          · have hcf : (c == '\n') = false := by simpa using hc
            rw [linesOf_cons_ne c cs hcf] at hL
            rcases List.mem_cons.mp hL with rfl | hL
            · obtain ⟨t, hdec, hsh⟩ := linesOf_head_decomp cs
              have hext := tryRel_extend t hsome
              have hLt : (c :: (linesOf cs).headD []) ++ t = c :: cs := by
                rw [List.cons_append, ← hdec]
              rw [hLt, ht] at hext
              simp at hext
            · have hrec := ih cs false hf2 ⟨L, by simpa using hL, hsome⟩
              simp only [List.length_cons, hcf]
              omega
      | false =>
        rw [procAuxF_step_false]
        obtain ⟨L, hL, hsome⟩ := h
        rw [if_neg (by simp)] at hL
        by_cases hc : (c == '\n') = true
        · have hceq : c = '\n' := by simpa using hc
          subst hceq
          rw [linesOf_cons_nl] at hL
          simp only [List.tail_cons] at hL
          have hrec := ih cs true hf2 ⟨L, by simpa using hL, hsome⟩
          simp only [List.length_cons, hc]
          omega
        · have hcf : (c == '\n') = false := by simpa using hc
          rw [linesOf_cons_ne c cs hcf] at hL
          simp only [List.tail_cons] at hL
          have hrec := ih cs false hf2 ⟨L, by simpa using hL, hsome⟩
          simp only [List.length_cons, hcf]
          omega

/-- C10: `generate_concat_file` applies `_process_imports` to every module's
content at every summarization level (first conjunct), and consequently a
module whose text contains a line matching the relative-import pattern, and
which does not already contain the generated `RELATIVE_IMPORT` marker, is
never emitted verbatim into the artifact, at any level including NONE
(second conjunct). -/
theorem claim_C10_neutralization_applied :
    (∀ (scan : List ModuleInfo) (level : SummaryLevel) (p c : String),
        (p, c) ∈ artifactEntries scan level →
        ∃ M ∈ scan, M.path = p ∧ c = processImports (summarizeContent level M.content)) ∧
    (∀ (level : SummaryLevel) (content : String),
        (∃ L ∈ linesOf content.data, (tryRel L).isSome = true) →
        ¬("RELATIVE_IMPORT".data <:+: content.data) →
        processImports (summarizeContent level content) ≠ content) := by
  constructor
  · intro scan level p c hmem
    unfold artifactEntries at hmem
    rw [List.mem_filterMap] at hmem
    obtain ⟨q, hq, hmap⟩ := hmem
    cases hf : findModule scan q with
    | none => rw [hf] at hmap; simp at hmap
    | some M =>
      rw [hf] at hmap
      simp only [Option.map_some', Option.some.injEq, Prod.mk.injEq] at hmap
      obtain ⟨hqp, hc⟩ := hmap
      refine ⟨M, List.mem_of_find?_eq_some hf, ?_, hc.symm⟩
      have hMq := List.find?_some hf
      have : M.path = q := by simpa using hMq
      rw [this, hqp]
  · intro level content hline hmark heq
    have hdata : procAuxF (summarizeContent level content).data.length true
        (summarizeContent level content).data = content.data := by
      have h2 := congrArg String.data heq
      simpa [processImports] using h2
    rcases procAuxF_id_or_marker (summarizeContent level content).data.length true
        (summarizeContent level content).data with hid | hmk
    · have hyc : (summarizeContent level content).data = content.data :=
        hid.symm.trans hdata
      rw [hyc] at hid
      have hstrict := procAuxF_strict content.data.length content.data true (le_refl _)
        (by simpa using hline)
      have := congrArg List.length hid
      omega
    · rw [hdata] at hmk
      exact hmark hmk

theorem claim_C10_witness :
    (∃ L ∈ linesOf ("from .x import y").data, (tryRel L).isSome = true) ∧
    ¬("RELATIVE_IMPORT".data <:+: ("from .x import y").data) ∧
    processImports (summarizeContent .NONE "from .x import y") ≠ "from .x import y" :=
  ⟨by decide, by decide,
    claim_C10_neutralization_applied.2 .NONE "from .x import y" (by decide) (by decide)⟩

/-! ## Claim C8: adjacent top-level declarations at level INTERFACE -/

theorem substF_zero (tryP : List Char → Option (List Char × List Char))
    (replFn : List Char → List Char) (cs : List Char) :
    substF tryP replFn 0 cs = cs := rfl

theorem substF_nil (tryP : List Char → Option (List Char × List Char))
    (replFn : List Char → List Char) (n : Nat) :
    substF tryP replFn n [] = [] := by
  cases n <;> rfl

theorem substF_cons_none (tryP : List Char → Option (List Char × List Char))
    (replFn : List Char → List Char) (n : Nat) (c : Char) (cs : List Char)
    (h : tryP (c :: cs) = none) :
    substF tryP replFn (n + 1) (c :: cs) = c :: substF tryP replFn n cs := by
  simp [substF, h]

theorem substF_cons_some (tryP : List Char → Option (List Char × List Char))
    (replFn : List Char → List Char) (n : Nat) (cs g rest : List Char)
    (h : tryP cs = some (g, rest)) (hne : cs ≠ []) :
    substF tryP replFn (n + 1) cs = replFn g ++ substF tryP replFn n rest := by
  cases cs with
  | nil => exact absurd rfl hne
  | cons c cs => simp [substF, h]

/-- `pat` occurs nowhere in `cs` as a prefix of any nonempty tail. -/
def noLitB (pat : List Char) : List Char → Bool
  | [] => true
  | c :: cs => !(pat.isPrefixOf (c :: cs)) && noLitB pat cs

theorem noLitB_head {pat cs : List Char} (hp : pat ≠ []) (h : noLitB pat cs = true) :
    pat.isPrefixOf cs = false := by
  cases cs with
  | nil =>
    cases pat with
    | nil => exact absurd rfl hp
    | cons p ps => rfl
  | cons c cs =>
    simp only [noLitB, Bool.and_eq_true, Bool.not_eq_true'] at h
    exact h.1

theorem noLitB_cons {pat : List Char} {c : Char} {cs : List Char}
    (h : noLitB pat (c :: cs) = true) :
    pat.isPrefixOf (c :: cs) = false ∧ noLitB pat cs = true := by
  simp only [noLitB, Bool.and_eq_true, Bool.not_eq_true'] at h
  exact h

theorem not_prefixOf_of_le {pat X B : List Char} (h : pat.isPrefixOf X = false)
    (hlen : pat.length ≤ X.length) : pat.isPrefixOf (X ++ B) = false := by
  by_contra habs
  rw [Bool.not_eq_false] at habs
  have h1 := List.isPrefixOf_iff_prefix.mp habs
  have h2 : pat <+: X := List.prefix_of_prefix_length_le h1 (List.prefix_append X B) hlen
  rw [List.isPrefixOf_iff_prefix.mpr h2] at h
  simp at h

theorem mem_of_prefix_append {pat dA : List Char} {b : Char} {B : List Char}
    (hpre : pat <+: dA ++ b :: B) (hlen : dA.length < pat.length) : b ∈ pat := by
  have hpat := List.prefix_iff_eq_take.mp hpre
  rw [hpat, List.take_append_eq_append_take]
  have h3 : pat.length - dA.length = (pat.length - dA.length - 1) + 1 := by omega
  rw [h3, List.take_succ_cons]
  simp

/-- A pattern containing no newline cannot match across a boundary whose right
side is empty or starts with a newline. -/
theorem not_prefixOf_append {pat A B : List Char} (hnl : ('\n' : Char) ∉ pat)
    (hA : pat.isPrefixOf A = false) (hB : B = [] ∨ B.head? = some '\n') :
    pat.isPrefixOf (A ++ B) = false := by
  by_cases hlen : pat.length ≤ A.length
  · exact not_prefixOf_of_le hA hlen
  · by_contra habs
    rw [Bool.not_eq_false] at habs
    have hpre := List.isPrefixOf_iff_prefix.mp habs
    rcases hB with hB | hB
    · subst hB
      rw [List.append_nil] at hpre
      have := hpre.length_le
      omega
    · cases B with
      | nil => simp at hB
      | cons b B' =>
        have hb : b = '\n' := by simpa using hB
        subst hb
        exact hnl (mem_of_prefix_append hpre (by omega))

/-- Per-position bridge obligation for `noLitB` over an append. -/
def Bridge (pat A B : List Char) : Prop :=
  ∀ i, i < A.length → A.length < i + pat.length →
    pat.isPrefixOf (A.drop i ++ B) = false

theorem bridge_of_first_char {pat A : List Char} (B : List Char)
    (h : ∀ i, i < A.length → A.length < i + pat.length →
      ((A.drop i).head? == pat.head?) = false) :
    Bridge pat A B := by
  intro i h1 h2
  by_contra habs
  rw [Bool.not_eq_false] at habs
  have hpre := List.isPrefixOf_iff_prefix.mp habs
  have hA : A.drop i ≠ [] := by
    intro hn
    have := List.drop_eq_nil_iff_le.mp hn
    omega
  cases hdA : A.drop i with
  | nil => exact absurd hdA hA
  | cons a dA' =>
    cases pat with
    | nil => simp at h2; omega
    | cons p ps =>
      rw [hdA] at hpre
      have hpa : p = a := by
        have := List.prefix_iff_eq_take.mp hpre
        simp [List.take_succ_cons] at this
        exact this.1
      have := h i h1 h2
      rw [hdA, hpa] at this
      simp at this

theorem bridge_of_head_not_mem {pat A B : List Char}
    (hB : ∀ c, B.head? = some c → c ∉ pat) :
    Bridge pat A B := by
  intro i h1 h2
  by_contra habs
  rw [Bool.not_eq_false] at habs
  have hpre := List.isPrefixOf_iff_prefix.mp habs
  have hdlen : (A.drop i).length = A.length - i := List.length_drop i A
  cases B with
  | nil =>
    rw [List.append_nil] at hpre
    have := hpre.length_le
    omega
  | cons b B' =>
    exact hB b rfl (mem_of_prefix_append hpre (by omega))

theorem noLitB_append {pat A B : List Char} (hp : pat ≠ [])
    (hA : noLitB pat A = true) (hB : noLitB pat B = true)
    (hbr : Bridge pat A B) : noLitB pat (A ++ B) = true := by
  induction A with
  | nil => simpa using hB
  | cons c A ih =>
    obtain ⟨h0, hrest⟩ := noLitB_cons hA
    have hbr' : Bridge pat A B := by
      intro i hi1 hi2
      have := hbr (i + 1) (by simp only [List.length_cons]; omega)
        (by simp only [List.length_cons]; omega)
      rwa [List.drop_succ_cons] at this
    have hhead : pat.isPrefixOf ((c :: A) ++ B) = false := by
      by_cases hlen : pat.length ≤ (c :: A).length
      · exact not_prefixOf_of_le h0 hlen
      · have := hbr 0 (by simp) (by simp only [List.length_cons] at hlen ⊢; omega)
        simpa using this
    rw [List.cons_append]
    simp only [noLitB, Bool.and_eq_true, Bool.not_eq_true']
    refine ⟨by rw [← List.cons_append]; exact hhead, ?_⟩
    exact ih hrest hbr'

theorem word_ne {c : Char} (h : isWordChar c = true) :
    isPySpace c = false ∧ c ≠ '\n' ∧ c ≠ '\"' ∧ c ≠ '(' ∧ c ≠ ')' := by
  refine ⟨?_, ?_, ?_, ?_, ?_⟩
  · by_contra hs
    rw [Bool.not_eq_false] at hs
    have hd : c = ' ' ∨ c = '\t' ∨ c = '\n' ∨ c = '\x0d' ∨ c = '\x0b' ∨ c = '\x0c' := by
      simpa [isPySpace, or_assoc] using hs
    rcases hd with h1 | h1 | h1 | h1 | h1 | h1 <;> (subst h1; exact absurd h (by decide))
  all_goals intro he; subst he; exact absurd h (by decide)

theorem litP_append (pat r : List Char) : litP pat (pat ++ r) = some r := by
  unfold litP
  rw [if_pos (List.isPrefixOf_iff_prefix.mpr ⟨r, rfl⟩), List.drop_left]

theorem dropWhile_cons_false {p : Char → Bool} {c : Char} {cs : List Char}
    (h : p c = false) : (c :: cs).dropWhile p = c :: cs := by
  simp [List.dropWhile_cons, h]

theorem dropWhile_all_append {p : Char → Bool} {A : List Char} (B : List Char)
    (hA : ∀ c ∈ A, p c = true) : (A ++ B).dropWhile p = B.dropWhile p := by
  induction A with
  | nil => rfl
  | cons c A ih =>
    rw [List.cons_append, List.dropWhile_cons, if_pos (hA c (by simp))]
    exact ih (fun x hx => hA x (by simp [hx]))

theorem dropWhile_mid {p : Char → Bool} {A : List Char} {b : Char} (B : List Char)
    (hA : ∀ c ∈ A, p c = true) (hb : p b = false) :
    (A ++ b :: B).dropWhile p = b :: B := by
  rw [dropWhile_all_append _ hA, dropWhile_cons_false hb]

theorem dropWhile_ne_nl {X : List Char} (h : X = [] ∨ X.head? = some '\n') :
    X.dropWhile (fun c => c != '\n') = X := by
  rcases h with h | h
  · subst h; rfl
  · cases X with
    | nil => rfl
    | cons c cs =>
      have hc : c = '\n' := by simpa using h
      subst hc
      exact dropWhile_cons_false (by decide)

theorem docOpt_no_quote {cs : List Char} (h : ∀ c ∈ cs, c ≠ '\"') : docOpt cs = cs := by
  show (if quote3.isPrefixOf (cs.dropWhile isPySpace) then _ else cs) = cs
  rw [if_neg]
  intro hpre
  have hq : ('\"' : Char) ∈ cs.dropWhile isPySpace := by
    obtain ⟨t, ht⟩ := List.isPrefixOf_iff_prefix.mp hpre
    rw [← ht]
    simp [quote3]
  exact h _ ((List.dropWhile_suffix isPySpace).subset hq) rfl

theorem startsCD_append_false {A B : List Char}
    (hA1 : "class".data.isPrefixOf A = false) (hA2 : "def".data.isPrefixOf A = false)
    (hB : B = [] ∨ B.head? = some '\n') : startsCD (A ++ B) = false := by
  unfold startsCD
  rw [not_prefixOf_append (by decide) hA1 hB, not_prefixOf_append (by decide) hA2 hB]
  rfl

theorem gobbleF_step (fuel : Nat) (c : Char) (cs : List Char) :
    gobbleF (fuel + 1) (c :: cs) =
      if c == '\n' && !startsCD cs then gobbleF fuel (cs.dropWhile (fun x => x != '\n'))
      else c :: cs := rfl

/-- Character stream of a declaration body: each body line preceded by a
newline. -/
def bodyChars : List String → List Char
  | [] => []
  | L :: rest => '\n' :: (L.data ++ bodyChars rest)

theorem bodyChars_shape (body : List String) :
    bodyChars body = [] ∨ (bodyChars body).head? = some '\n' := by
  cases body with
  | nil => exact Or.inl rfl
  | cons L rest => exact Or.inr rfl

/-- The gobble loop consumes a well-formed body block entirely and stops at a
tail that is empty or is a newline followed by a `class`/`def` header. -/
theorem gobbleF_block : ∀ (fuel : Nat) (body : List String) (T : List Char),
    (bodyChars body).length ≤ fuel →
    (∀ L ∈ body, "class".data.isPrefixOf L.data = false ∧
      "def".data.isPrefixOf L.data = false ∧ ('\n' : Char) ∉ L.data) →
    (T = [] ∨ ∃ r, T = '\n' :: r ∧ startsCD r = true) →
    gobbleF fuel (bodyChars body ++ T) = T := by
  intro fuel
  induction fuel with
  | zero =>
    intro body T hlen hlines hT
    cases body with
    | nil =>
      rcases hT with hT | ⟨r, hT, _⟩
      · subst hT; rfl
      · subst hT; rfl
    | cons L rest => simp [bodyChars] at hlen
  | succ fuel ih =>
    intro body T hlen hlines hT
    cases body with
    | nil =>
      rcases hT with hT | ⟨r, hT, hcd⟩
      · subst hT; rfl
      · subst hT
        show gobbleF (fuel + 1) ('\n' :: r) = '\n' :: r
        rw [gobbleF_step, if_neg]
        simp [hcd]
    | cons L rest =>
      obtain ⟨hL1, hL2, hLnl⟩ := hlines L (by simp)
      have hBshape : bodyChars rest ++ T = [] ∨ (bodyChars rest ++ T).head? = some '\n' := by
        rcases bodyChars_shape rest with h | h
        · rw [h, List.nil_append]
          rcases hT with hT | ⟨r, hT, _⟩
          · exact Or.inl hT
          · subst hT; exact Or.inr rfl
        · right
          cases hbc : bodyChars rest with
          | nil => rw [hbc] at h; simp at h
          | cons b bs =>
            rw [hbc] at h
            simpa using h
      have hassoc : bodyChars (L :: rest) ++ T = '\n' :: (L.data ++ (bodyChars rest ++ T)) := by
        simp [bodyChars]
      rw [hassoc, gobbleF_step, if_pos]
      · have hdw : (L.data ++ (bodyChars rest ++ T)).dropWhile (fun x => x != '\n') =
            bodyChars rest ++ T := by
          rw [dropWhile_all_append _ (fun c hc => by
            simp only [bne_iff_ne, ne_eq, decide_eq_true_eq]
            intro he; subst he; exact hLnl hc)]
          exact dropWhile_ne_nl hBshape
        rw [hdw]
        apply ih rest T _ (fun x hx => hlines x (by simp [hx])) hT
        simp only [bodyChars, List.length_cons, List.length_append] at hlen
        omega
      · rw [startsCD_append_false hL1 hL2 hBshape]
        rfl

/-- A top-level Python declaration: `class name(args):` or `def name(args):`
followed by indented body lines. -/
structure PyDecl where
  isClass : Bool
  name : String
  args : String
  body : List String
deriving DecidableEq, Repr

/-- Capture group 1 of the interface patterns: keyword, name and the
parenthesised argument list, without the trailing colon. -/
def groupOf (d : PyDecl) : List Char :=
  (if d.isClass then "class " else "def ").data ++
    (d.name.data ++ ('(' :: (d.args.data ++ [')'])))

/-- The header line of the declaration (capture group plus the colon). -/
def headerOf (d : PyDecl) : List Char :=
  groupOf d ++ [':']

/-- Source text of the declaration: header line then the body lines. -/
def declTextOf (d : PyDecl) : List Char :=
  groupOf d ++ (':' :: bodyChars d.body)

/-- The explanation string the matching default rule attaches. -/
def explOf (d : PyDecl) : String :=
  if d.isClass then "Class interface preserved" else "Function signature preserved"

/-- The text the INTERFACE pass leaves in place of the declaration. -/
def replOf (d : PyDecl) : List Char :=
  replStub (explOf d) (groupOf d)

/-- Well-formedness of a declaration for the non-overlap argument: the name is
a nonempty identifier; args avoid `)`, newline and `"`; body lines avoid
newline and `"`, do not start with `class`/`def`, and contain neither literal
anywhere (so the summary patterns can match only at the header). -/
def GoodDecl (d : PyDecl) : Prop :=
  d.name.data ≠ [] ∧
  (∀ c ∈ d.name.data, isWordChar c = true) ∧
  noLitB "class".data d.name.data = true ∧
  noLitB "def".data d.name.data = true ∧
  (∀ c ∈ d.args.data, c ≠ ')' ∧ c ≠ '\n' ∧ c ≠ '\"') ∧
  noLitB "class".data d.args.data = true ∧
  noLitB "def".data d.args.data = true ∧
  (∀ L ∈ d.body, (∀ c ∈ L.data, c ≠ '\n' ∧ c ≠ '\"') ∧
    noLitB "class".data L.data = true ∧ noLitB "def".data L.data = true)

instance (d : PyDecl) : Decidable (GoodDecl d) := by
  unfold GoodDecl
  infer_instance

theorem tryClass_none {cs : List Char} (h : "class".data.isPrefixOf cs = false) :
    tryClass cs = none := by
  unfold tryClass litP
  rw [if_neg (by simp [h])]

theorem tryDef_none {cs : List Char} (h : "def".data.isPrefixOf cs = false) :
    tryDef cs = none := by
  unfold tryDef litP
  rw [if_neg (by simp [h])]

/-- A region in which the pattern literal never occurs is copied verbatim by
the substitution loop. -/
theorem substF_skip (tryP : List Char → Option (List Char × List Char))
    (replFn : List Char → List Char) (pat : List Char)
    (hnl : ('\n' : Char) ∉ pat)
    (htry : ∀ cs, pat.isPrefixOf cs = false → tryP cs = none) :
    ∀ (S T : List Char), noLitB pat S = true → (T = [] ∨ T.head? = some '\n') →
      ∀ n, substF tryP replFn (S.length + n) (S ++ T) =
        S ++ substF tryP replFn n T := by
  intro S
  induction S with
  | nil => intro T _ _ n; simp
  | cons c S ih =>
    intro T hS hT n
    obtain ⟨hS0, hSrest⟩ := noLitB_cons hS
    have hfail : tryP (c :: (S ++ T)) = none := by
      apply htry
      rw [← List.cons_append]
      exact not_prefixOf_append hnl hS0 hT
    have hlen : (c :: S).length + n = (S.length + n) + 1 := by
      simp only [List.length_cons]
      omega
    rw [hlen, List.cons_append, substF_cons_none _ _ _ _ _ hfail, ih T hSrest hT n,
      ← List.cons_append]

/-- One substitution pass over a text made of two regions separated by a
newline: each region is either matched exactly (leaving the separator and the
following region untouched) or free of the pattern literal and copied. -/
theorem subst_two (tryP : List Char → Option (List Char × List Char))
    (replFn : List Char → List Char) (pat : List Char)
    (hpne : pat ≠ []) (hnl : ('\n' : Char) ∉ pat)
    (htry : ∀ cs, pat.isPrefixOf cs = false → tryP cs = none)
    (D1 D2 O1 O2 : List Char) (h1ne : D1 ≠ []) (h2ne : D2 ≠ [])
    (h1 : (∃ g, tryP (D1 ++ '\n' :: D2) = some (g, '\n' :: D2) ∧ O1 = replFn g) ∨
          (noLitB pat D1 = true ∧ O1 = D1))
    (h2 : (∃ g, tryP D2 = some (g, []) ∧ O2 = replFn g) ∨
          (noLitB pat D2 = true ∧ O2 = D2)) :
    subst tryP replFn (D1 ++ '\n' :: D2) = O1 ++ '\n' :: O2 := by
  have hl1 : 1 ≤ D1.length := List.length_pos.mpr h1ne
  have hl2 : 1 ≤ D2.length := List.length_pos.mpr h2ne
  have hnlstep : ∀ k, substF tryP replFn (k + 1) ('\n' :: D2) =
      '\n' :: substF tryP replFn k D2 := by
    intro k
    apply substF_cons_none
    apply htry
    cases pat with
    | nil => exact absurd rfl hpne
    | cons p ps =>
      have hp : (p == '\n') = false := by
        simp only [beq_eq_false_iff_ne, ne_eq]
        intro he
        subst he
        exact hnl (by simp)
      simp [List.isPrefixOf, hp]
  have hfin : ∀ k, substF tryP replFn k ([] : List Char) = [] := substF_nil tryP replFn
  unfold subst
  have hlen : (D1 ++ '\n' :: D2).length = D1.length + (D2.length + 1) := by
    simp [List.length_append]
  rcases h1 with ⟨g1, hm1, hO1⟩ | ⟨hno1, hO1⟩
  · have hx : (D1 ++ '\n' :: D2).length = (D1.length + D2.length) + 1 := by
      rw [hlen]; omega
    rw [hx, substF_cons_some _ _ _ _ _ _ hm1 (by simp [h1ne])]
    have hx2 : D1.length + D2.length = (D1.length - 1 + D2.length) + 1 := by omega
    rw [hx2, hnlstep]
    rcases h2 with ⟨g2, hm2, hO2⟩ | ⟨hno2, hO2⟩
    · have hx3 : D1.length - 1 + D2.length = (D1.length - 1 + D2.length - 1) + 1 := by
        omega
      rw [hx3, substF_cons_some _ _ _ _ _ _ hm2 h2ne, hfin, hO1, hO2,
        List.append_nil]
    · have hx3 : D1.length - 1 + D2.length = D2.length + (D1.length - 1) := by omega
      have hskipn : substF tryP replFn (D2.length + (D1.length - 1)) D2 = D2 := by
        simpa [hfin] using
          substF_skip tryP replFn pat hnl htry D2 [] hno2 (Or.inl rfl) (D1.length - 1)
      rw [hx3, hskipn, hO1, hO2]
  · rw [hlen, substF_skip tryP replFn pat hnl htry D1 ('\n' :: D2) hno1 (Or.inr rfl)]
    rw [show D2.length + 1 = D2.length + 1 from rfl, hnlstep]
    rcases h2 with ⟨g2, hm2, hO2⟩ | ⟨hno2, hO2⟩
    · have hx3 : D2.length = (D2.length - 1) + 1 := by omega
      rw [hx3, substF_cons_some _ _ _ _ _ _ hm2 h2ne, hfin, hO1, hO2, List.append_nil]
    · have hskip0 : substF tryP replFn D2.length D2 = D2 := by
        have := substF_skip tryP replFn pat hnl htry D2 [] hno2 (Or.inl rfl) 0
        simpa [hfin] using this
      rw [hskip0, hO1, hO2]

theorem parenOpt_eq {t u : List Char} (h : t.dropWhile (fun c => c != ')') = ')' :: u) :
    parenOpt ('(' :: t) = u := by
  unfold parenOpt
  split
  · next t1 heq =>
    obtain rfl : t1 = t := by injection heq with h1 h2; exact h2.symm
    rw [h]
    split
    · next u1 heq2 =>
      injection heq2 with h3 h4
      exact h4.symm
    · next hne => exact absurd rfl (hne u)
  · next hne => exact absurd rfl (hne t)

/-- The class interface pattern, applied at the start of a well-formed class
declaration, matches exactly the declaration text: it captures the header
without the colon and stops right before the following text. -/
theorem tryClass_at (name args bodyB T : List Char)
    (hn0 : name ≠ []) (hnw : ∀ c ∈ name, isWordChar c = true)
    (ha : ∀ c ∈ args, c ≠ ')' ∧ c ≠ '\n' ∧ c ≠ '\"')
    (hq : ∀ c ∈ bodyB ++ T, c ≠ '\"')
    (hB : bodyB = [] ∨ bodyB.head? = some '\n')
    (hT : T = [] ∨ T.head? = some '\n')
    (hgob : gobble (bodyB ++ T) = T) :
    tryClass ("class ".data ++
        (name ++ ('(' :: (args ++ (')' :: (':' :: (bodyB ++ T))))))) =
      some ("class ".data ++ (name ++ ('(' :: (args ++ [')']))), T) := by
  obtain ⟨n0, name', rfl⟩ : ∃ n0 name', name = n0 :: name' := by
    cases name with
    | nil => exact absurd rfl hn0
    | cons n0 name' => exact ⟨n0, name', rfl⟩
  have hn0w : isWordChar n0 = true := hnw n0 (by simp)
  have hYshape : bodyB ++ T = [] ∨ (bodyB ++ T).head? = some '\n' := by
    rcases hB with hB | hB
    · rw [hB, List.nil_append]
      exact hT
    · cases bodyB with
      | nil => simp at hB
      | cons b bs => exact Or.inr (by simpa using hB)
  have e0 : "class ".data =
      "class".data ++ [' '] := by decide
  have ecs : "class ".data ++
        ((n0 :: name') ++ ('(' :: (args ++ (')' :: (':' :: (bodyB ++ T)))))) =
      "class".data ++ (' ' ::
        ((n0 :: name') ++ ('(' :: (args ++ (')' :: (':' :: (bodyB ++ T))))))) := by
    rw [e0]
    simp
  unfold tryClass
  rw [ecs, litP_append]
  dsimp only
  have hws : wsPlus (' ' ::
      ((n0 :: name') ++ ('(' :: (args ++ (')' :: (':' :: (bodyB ++ T))))))) =
      some ((n0 :: name') ++ ('(' :: (args ++ (')' :: (':' :: (bodyB ++ T)))))) := by
    show (if isPySpace ' ' then
        some ((((n0 :: name') ++ ('(' :: (args ++ (')' :: (':' :: (bodyB ++ T)))))).dropWhile
          isPySpace)) else none) = _
    rw [if_pos (by decide), List.cons_append,
      dropWhile_cons_false (word_ne hn0w).1]
  rw [hws]
  dsimp only
  have hword : wordPlus ((n0 :: name') ++
      ('(' :: (args ++ (')' :: (':' :: (bodyB ++ T)))))) =
      some ('(' :: (args ++ (')' :: (':' :: (bodyB ++ T))))) := by
    show (if isWordChar n0 then
        some ((name' ++ ('(' :: (args ++ (')' :: (':' :: (bodyB ++ T)))))).dropWhile
          isWordChar) else none) = _
    rw [if_pos hn0w,
      dropWhile_mid _ (fun c hc => hnw c (by simp [hc])) (by decide)]
  rw [hword]
  dsimp only
  have hpar : parenOpt ('(' :: (args ++ (')' :: (':' :: (bodyB ++ T))))) =
      ':' :: (bodyB ++ T) := by
    apply parenOpt_eq
    exact dropWhile_mid _ (fun c hc => by
      simp only [bne_iff_ne, ne_eq, decide_eq_true_eq]
      exact (ha c hc).1) (by decide)
  rw [hpar]
  have hcol : litP [':'] (':' :: (bodyB ++ T)) = some (bodyB ++ T) :=
    litP_append [':'] (bodyB ++ T)
  rw [hcol]
  dsimp only
  rw [docOpt_no_quote hq, dropWhile_ne_nl hYshape, hgob]
  have hwhole : "class".data ++
        (' ' :: ((n0 :: name') ++ ('(' :: (args ++ (')' :: (':' :: (bodyB ++ T))))))) =
      ("class ".data ++ ((n0 :: name') ++ ('(' :: (args ++ [')'])))) ++
        (':' :: (bodyB ++ T)) := by
    rw [e0]
    simp
  rw [hwhole, List.take_left' (by simp [List.length_append]; omega)]

/-- The function interface pattern, applied at the start of a well-formed
function declaration, matches exactly the declaration text. -/
theorem tryDef_at (name args bodyB T : List Char)
    (hn0 : name ≠ []) (hnw : ∀ c ∈ name, isWordChar c = true)
    (ha : ∀ c ∈ args, c ≠ ')' ∧ c ≠ '\n' ∧ c ≠ '\"')
    (hq : ∀ c ∈ bodyB ++ T, c ≠ '\"')
    (hB : bodyB = [] ∨ bodyB.head? = some '\n')
    (hT : T = [] ∨ T.head? = some '\n')
    (hgob : gobble (bodyB ++ T) = T) :
    tryDef ("def ".data ++
        (name ++ ('(' :: (args ++ (')' :: (':' :: (bodyB ++ T))))))) =
      some ("def ".data ++ (name ++ ('(' :: (args ++ [')']))), T) := by
  obtain ⟨n0, name', rfl⟩ : ∃ n0 name', name = n0 :: name' := by
    cases name with
    | nil => exact absurd rfl hn0
    | cons n0 name' => exact ⟨n0, name', rfl⟩
  have hn0w : isWordChar n0 = true := hnw n0 (by simp)
  have hYshape : bodyB ++ T = [] ∨ (bodyB ++ T).head? = some '\n' := by
    rcases hB with hB | hB
    · rw [hB, List.nil_append]
      exact hT
    · cases bodyB with
      | nil => simp at hB
      | cons b bs => exact Or.inr (by simpa using hB)
  have e0 : "def ".data = "def".data ++ [' '] := by decide
  have ecs : "def ".data ++
        ((n0 :: name') ++ ('(' :: (args ++ (')' :: (':' :: (bodyB ++ T)))))) =
      "def".data ++ (' ' ::
        ((n0 :: name') ++ ('(' :: (args ++ (')' :: (':' :: (bodyB ++ T))))))) := by
    rw [e0]
    simp
  unfold tryDef
  rw [ecs, litP_append]
  dsimp only
  have hws : wsPlus (' ' ::
      ((n0 :: name') ++ ('(' :: (args ++ (')' :: (':' :: (bodyB ++ T))))))) =
      some ((n0 :: name') ++ ('(' :: (args ++ (')' :: (':' :: (bodyB ++ T)))))) := by
    show (if isPySpace ' ' then
        some ((((n0 :: name') ++ ('(' :: (args ++ (')' :: (':' :: (bodyB ++ T)))))).dropWhile
          isPySpace)) else none) = _
    rw [if_pos (by decide), List.cons_append,
      dropWhile_cons_false (word_ne hn0w).1]
  rw [hws]
  dsimp only
  have hword : wordPlus ((n0 :: name') ++
      ('(' :: (args ++ (')' :: (':' :: (bodyB ++ T)))))) =
      some ('(' :: (args ++ (')' :: (':' :: (bodyB ++ T))))) := by
    show (if isWordChar n0 then
        some ((name' ++ ('(' :: (args ++ (')' :: (':' :: (bodyB ++ T)))))).dropWhile
          isWordChar) else none) = _
    rw [if_pos hn0w,
      dropWhile_mid _ (fun c hc => hnw c (by simp [hc])) (by decide)]
  rw [hword]
  dsimp only
  rw [dropWhile_cons_false (show isPySpace '(' = false by decide)]
  rw [show ('(' : Char) :: (args ++ (')' :: (':' :: (bodyB ++ T)))) =
    ['('] ++ (args ++ (')' :: (':' :: (bodyB ++ T)))) from rfl, litP_append]
  dsimp only
  rw [dropWhile_mid _ (fun c hc => by
    simp only [bne_iff_ne, ne_eq, decide_eq_true_eq]
    exact (ha c hc).1) (by decide)]
  rw [show (')' : Char) :: (':' :: (bodyB ++ T)) =
    [')'] ++ (':' :: (bodyB ++ T)) from rfl, litP_append]
  dsimp only
  have hcol : litP [':'] (':' :: (bodyB ++ T)) = some (bodyB ++ T) :=
    litP_append [':'] (bodyB ++ T)
  rw [hcol]
  dsimp only
  rw [docOpt_no_quote hq, dropWhile_ne_nl hYshape, hgob]
  have hwhole : "def".data ++
        (' ' :: ((n0 :: name') ++ (['('] ++ (args ++ ([')'] ++ (':' :: (bodyB ++ T))))))) =
      ("def ".data ++ ((n0 :: name') ++ ('(' :: (args ++ [')'])))) ++
        (':' :: (bodyB ++ T)) := by
    rw [e0]
    simp
  rw [hwhole, List.take_left' (by simp [List.length_append]; omega)]

theorem not_prefixOf_nl {pat : List Char} (hpne : pat ≠ [])
    (hnl : ('\n' : Char) ∉ pat) (B : List Char) :
    pat.isPrefixOf ('\n' :: B) = false := by
  cases pat with
  | nil => exact absurd rfl hpne
  | cons p ps =>
    have hp : (p == '\n') = false := by
      simp only [beq_eq_false_iff_ne, ne_eq]
      intro he
      subst he
      exact hnl (by simp)
    simp [List.isPrefixOf, hp]

theorem mem_bodyChars {c : Char} : ∀ {body : List String}, c ∈ bodyChars body →
    c = '\n' ∨ ∃ L ∈ body, c ∈ L.data := by
  intro body
  induction body with
  | nil => intro h; simp [bodyChars] at h
  | cons L rest ih =>
    intro h
    simp only [bodyChars, List.mem_cons, List.mem_append] at h
    rcases h with h | h | h
    · exact Or.inl h
    · exact Or.inr ⟨L, by simp, h⟩
    · rcases ih h with h | ⟨L', hL', hc⟩
      · exact Or.inl h
      · exact Or.inr ⟨L', by simp [hL'], hc⟩

theorem noLitB_bodyChars {pat : List Char} (hpne : pat ≠ [])
    (hnl : ('\n' : Char) ∉ pat) :
    ∀ {body : List String},
      (∀ L ∈ body, noLitB pat L.data = true ∧ ('\n' : Char) ∉ L.data) →
      noLitB pat (bodyChars body) = true := by
  intro body
  induction body with
  | nil => intro _; rfl
  | cons L rest ih =>
    intro h
    show noLitB pat ('\n' :: (L.data ++ bodyChars rest)) = true
    simp only [noLitB, Bool.and_eq_true, Bool.not_eq_true']
    refine ⟨not_prefixOf_nl hpne hnl _, ?_⟩
    apply noLitB_append hpne (h L (by simp)).1 (ih (fun x hx => h x (by simp [hx])))
    apply bridge_of_head_not_mem
    intro c hc
    rcases bodyChars_shape rest with hsh | hsh
    · rw [hsh] at hc
      simp at hc
    · rw [hsh] at hc
      injection hc with hc
      subst hc
      exact hnl

theorem declTextOf_decomp (d : PyDecl) :
    declTextOf d = (if d.isClass then "class " else "def ").data ++
      (d.name.data ++ ('(' :: (d.args.data ++ (')' :: (':' :: bodyChars d.body))))) := by
  simp [declTextOf, groupOf]

theorem replOf_decomp (d : PyDecl) :
    replOf d = (if d.isClass then "class " else "def ").data ++
      (d.name.data ++ ('(' :: (d.args.data ++
        (')' :: (":\n    ... #  # " ++ explOf d ++ "\n").data)))) := by
  simp [replOf, replStub, groupOf]

theorem no_quote_declText (d : PyDecl) (hg : GoodDecl d) :
    ∀ c ∈ declTextOf d, c ≠ '\"' := by
  obtain ⟨hn0, hnw, hncls, hndef, hac, hacls, hadef, hbody⟩ := hg
  intro c hc
  rw [declTextOf_decomp] at hc
  simp only [List.mem_append, List.mem_cons] at hc
  rcases hc with hc | hc | hc | hc | hc | hc
  · intro he
    subst he
    cases hic : d.isClass <;> rw [hic] at hc <;> exact absurd hc (by decide)
  · exact (word_ne (hnw c hc)).2.2.1
  · subst hc; decide
  · exact (hac c hc).2.2
  · subst hc; decide
  · rcases hc with hc | hc
    · subst hc; decide
    · rcases mem_bodyChars hc with hc | ⟨L, hL, hc⟩
      · subst hc; decide
      · exact ((hbody L hL).1 c hc).2

theorem no_quote_replOf (d : PyDecl) (hg : GoodDecl d) :
    ∀ c ∈ replOf d, c ≠ '\"' := by
  obtain ⟨hn0, hnw, hncls, hndef, hac, hacls, hadef, hbody⟩ := hg
  intro c hc
  rw [replOf_decomp] at hc
  simp only [List.mem_append, List.mem_cons] at hc
  rcases hc with hc | hc | hc | hc | hc | hc
  · intro he
    subst he
    cases hic : d.isClass <;> rw [hic] at hc <;> exact absurd hc (by decide)
  · exact (word_ne (hnw c hc)).2.2.1
  · subst hc; decide
  · exact (hac c hc).2.2
  · subst hc; decide
  · intro he
    subst he
    cases hic : d.isClass <;> simp only [explOf, hic] at hc <;>
      exact absurd hc (by decide)

theorem startsCD_declText (d : PyDecl) : startsCD (declTextOf d) = true := by
  rw [declTextOf_decomp]
  unfold startsCD
  cases hic : d.isClass
  · simp only [if_false]
    have : "def".data.isPrefixOf ("def ".data ++ (d.name.data ++
        ('(' :: (d.args.data ++ (')' :: (':' :: bodyChars d.body)))))) = true := by
      apply List.isPrefixOf_iff_prefix.mpr
      refine ⟨' ' :: (d.name.data ++ ('(' :: (d.args.data ++ (')' :: (':' :: bodyChars d.body))))), ?_⟩
      rw [show "def ".data = "def".data ++ [' '] from by decide]
      simp
    simp [this]
  · simp only [if_true]
    have : "class".data.isPrefixOf ("class ".data ++ (d.name.data ++
        ('(' :: (d.args.data ++ (')' :: (':' :: bodyChars d.body)))))) = true := by
      apply List.isPrefixOf_iff_prefix.mpr
      refine ⟨' ' :: (d.name.data ++ ('(' :: (d.args.data ++ (')' :: (':' :: bodyChars d.body))))), ?_⟩
      rw [show "class ".data = "class".data ++ [' '] from by decide]
      simp
    simp [this]

theorem startsCD_replOf (d : PyDecl) : startsCD (replOf d) = true := by
  rw [replOf_decomp]
  unfold startsCD
  cases hic : d.isClass
  · simp only [if_false]
    have : "def".data.isPrefixOf ("def ".data ++ (d.name.data ++
        ('(' :: (d.args.data ++ (')' :: (":\n    ... #  # " ++ explOf d ++ "\n").data))))) = true := by
      apply List.isPrefixOf_iff_prefix.mpr
      refine ⟨' ' :: (d.name.data ++ ('(' :: (d.args.data ++
        (')' :: (":\n    ... #  # " ++ explOf d ++ "\n").data)))), ?_⟩
      rw [show "def ".data = "def".data ++ [' '] from by decide]
      simp
    simp [this]
  · simp only [if_true]
    have : "class".data.isPrefixOf ("class ".data ++ (d.name.data ++
        ('(' :: (d.args.data ++ (')' :: (":\n    ... #  # " ++ explOf d ++ "\n").data))))) = true := by
      apply List.isPrefixOf_iff_prefix.mpr
      refine ⟨' ' :: (d.name.data ++ ('(' :: (d.args.data ++
        (')' :: (":\n    ... #  # " ++ explOf d ++ "\n").data)))), ?_⟩
      rw [show "class ".data = "class".data ++ [' '] from by decide]
      simp
    simp [this]

theorem declTextOf_ne_nil (d : PyDecl) : declTextOf d ≠ [] := by
  rw [declTextOf_decomp]
  cases d.isClass <;> simp

theorem replOf_ne_nil (d : PyDecl) : replOf d ≠ [] := by
  rw [replOf_decomp]
  cases d.isClass <;> simp

/-- The class pattern literal does not occur anywhere in a well-formed
function declaration. -/
theorem noLit_class_declText (d : PyDecl) (hg : GoodDecl d) (hc : d.isClass = false) :
    noLitB "class".data (declTextOf d) = true := by
  obtain ⟨hn0, hnw, hncls, hndef, hac, hacls, hadef, hbody⟩ := hg
  rw [declTextOf_decomp]
  simp only [hc, Bool.false_eq_true, if_false]
  refine noLitB_append (by decide) (by decide) ?_ ?_
  · refine noLitB_append (by decide) hncls ?_ ?_
    · show noLitB "class".data
        (['('] ++ (d.args.data ++ (')' :: (':' :: bodyChars d.body)))) = true
      refine noLitB_append (by decide) (by decide) ?_ ?_
      · refine noLitB_append (by decide) hacls ?_ ?_
        · show noLitB "class".data ([')', ':'] ++ bodyChars d.body) = true
          refine noLitB_append (by decide) (by decide) ?_ ?_
          · exact noLitB_bodyChars (by decide) (by decide)
              (fun L hL => ⟨(hbody L hL).2.1,
                fun hnl => ((hbody L hL).1 '\n' hnl).1 rfl⟩)
          · apply bridge_of_first_char
            decide
        · apply bridge_of_head_not_mem
          intro c hcB
          simp only [List.head?_cons, Option.some.injEq] at hcB
          subst hcB
          decide
      · apply bridge_of_first_char
        decide
    · apply bridge_of_head_not_mem
      intro c hcB
      simp only [List.head?_cons, Option.some.injEq] at hcB
      subst hcB
      decide
  · apply bridge_of_first_char
    decide

/-- The def pattern literal does not occur anywhere in the replacement text of
a class declaration. -/
theorem noLit_def_replOf (d : PyDecl) (hg : GoodDecl d) (hc : d.isClass = true) :
    noLitB "def".data (replOf d) = true := by
  obtain ⟨hn0, hnw, hncls, hndef, hac, hacls, hadef, hbody⟩ := hg
  rw [replOf_decomp]
  simp only [hc, if_true, explOf]
  refine noLitB_append (by decide) (by decide) ?_ ?_
  · refine noLitB_append (by decide) hndef ?_ ?_
    · show noLitB "def".data
        (['('] ++ (d.args.data ++
          (')' :: (":\n    ... #  # " ++ "Class interface preserved" ++ "\n").data))) = true
      refine noLitB_append (by decide) (by decide) ?_ ?_
      · refine noLitB_append (by decide) hadef ?_ ?_
        · decide
        · apply bridge_of_head_not_mem
          intro c hcB
          simp only [List.head?_cons, Option.some.injEq] at hcB
          subst hcB
          decide
      · apply bridge_of_first_char
        decide
    · apply bridge_of_head_not_mem
      intro c hcB
      simp only [List.head?_cons, Option.some.injEq] at hcB
      subst hcB
      decide
  · apply bridge_of_first_char
    decide

theorem tryClass_decl (d : PyDecl) (hg : GoodDecl d) (hc : d.isClass = true)
    (T : List Char) (hT : T = [] ∨ ∃ r, T = '\n' :: r ∧ startsCD r = true)
    (hTq : ∀ c ∈ T, c ≠ '\"') :
    tryClass (declTextOf d ++ T) = some (groupOf d, T) := by
  obtain ⟨hn0, hnw, hncls, hndef, hac, hacls, hadef, hbody⟩ := hg
  have hTsh : T = [] ∨ T.head? = some '\n' := by
    rcases hT with h | ⟨r, h, _⟩
    · exact Or.inl h
    · subst h; exact Or.inr rfl
  have hgob : gobble (bodyChars d.body ++ T) = T := by
    show gobbleF (bodyChars d.body ++ T).length (bodyChars d.body ++ T) = T
    apply gobbleF_block
    · rw [List.length_append]
      exact Nat.le_add_right _ _
    · intro L hL
      exact ⟨noLitB_head (by decide) (hbody L hL).2.1,
        noLitB_head (by decide) (hbody L hL).2.2,
        fun hnl => ((hbody L hL).1 '\n' hnl).1 rfl⟩
    · exact hT
  have hq : ∀ c ∈ bodyChars d.body ++ T, c ≠ '\"' := by
    intro c hcm
    rcases List.mem_append.mp hcm with h | h
    · rcases mem_bodyChars h with h | ⟨L, hL, h⟩
      · subst h; decide
      · exact ((hbody L hL).1 c h).2
    · exact hTq c h
  have hmain := tryClass_at d.name.data d.args.data (bodyChars d.body) T
    hn0 hnw hac hq (bodyChars_shape d.body) hTsh hgob
  have heq : declTextOf d ++ T = "class ".data ++
      (d.name.data ++ ('(' :: (d.args.data ++ (')' :: (':' :: (bodyChars d.body ++ T)))))) := by
    rw [declTextOf_decomp]
    simp [hc]
  have hgrp : groupOf d = "class ".data ++ (d.name.data ++ ('(' :: (d.args.data ++ [')']))) := by
    simp [groupOf, hc]
  rw [heq, hmain, hgrp]

theorem tryDef_decl (d : PyDecl) (hg : GoodDecl d) (hc : d.isClass = false)
    (T : List Char) (hT : T = [] ∨ ∃ r, T = '\n' :: r ∧ startsCD r = true)
    (hTq : ∀ c ∈ T, c ≠ '\"') :
    tryDef (declTextOf d ++ T) = some (groupOf d, T) := by
  obtain ⟨hn0, hnw, hncls, hndef, hac, hacls, hadef, hbody⟩ := hg
  have hTsh : T = [] ∨ T.head? = some '\n' := by
    rcases hT with h | ⟨r, h, _⟩
    · exact Or.inl h
    · subst h; exact Or.inr rfl
  have hgob : gobble (bodyChars d.body ++ T) = T := by
    show gobbleF (bodyChars d.body ++ T).length (bodyChars d.body ++ T) = T
    apply gobbleF_block
    · rw [List.length_append]
      exact Nat.le_add_right _ _
    · intro L hL
      exact ⟨noLitB_head (by decide) (hbody L hL).2.1,
        noLitB_head (by decide) (hbody L hL).2.2,
        fun hnl => ((hbody L hL).1 '\n' hnl).1 rfl⟩
    · exact hT
  have hq : ∀ c ∈ bodyChars d.body ++ T, c ≠ '\"' := by
    intro c hcm
    rcases List.mem_append.mp hcm with h | h
    · rcases mem_bodyChars h with h | ⟨L, hL, h⟩
      · subst h; decide
      · exact ((hbody L hL).1 c h).2
    · exact hTq c h
  have hmain := tryDef_at d.name.data d.args.data (bodyChars d.body) T
    hn0 hnw hac hq (bodyChars_shape d.body) hTsh hgob
  have heq : declTextOf d ++ T = "def ".data ++
      (d.name.data ++ ('(' :: (d.args.data ++ (')' :: (':' :: (bodyChars d.body ++ T)))))) := by
    rw [declTextOf_decomp]
    simp [hc]
  have hgrp : groupOf d = "def ".data ++ (d.name.data ++ ('(' :: (d.args.data ++ [')']))) := by
    simp [groupOf, hc]
  rw [heq, hmain, hgrp]

theorem linesOf_headD {x post : List Char} (hx : ∀ c ∈ x, c ≠ '\n')
    (hp : post = [] ∨ post.head? = some '\n') :
    (linesOf (x ++ post)).headD [] = x := by
  induction x with
  | nil =>
    rcases hp with hp | hp
    · subst hp; rfl
    · cases post with
      | nil => rfl
      | cons c cs =>
        have hc : c = '\n' := by simpa using hp
        subst hc
        rw [List.nil_append, linesOf_cons_nl]
        rfl
  | cons c x' ih =>
    have hcnl : (c == '\n') = false := by
      simp only [beq_eq_false_iff_ne, ne_eq]
      exact hx c (by simp)
    rw [List.cons_append, linesOf_cons_ne c _ hcnl]
    simp only [List.headD_cons, List.cons.injEq, true_and]
    exact ih (fun a ha => hx a (by simp [ha]))

theorem headD_mem {l : List (List Char)} (h : l ≠ []) : l.headD [] ∈ l := by
  cases l with
  | nil => exact absurd rfl h
  | cons a t => simp

theorem mem_linesOf_self {x post : List Char} (hx : ∀ c ∈ x, c ≠ '\n')
    (hp : post = [] ∨ post.head? = some '\n') : x ∈ linesOf (x ++ post) := by
  have hm := headD_mem (linesOf_ne_nil (x ++ post))
  rwa [linesOf_headD hx hp] at hm

theorem linesOf_append_nl (A t : List Char) :
    ∃ s, s ≠ [] ∧ linesOf (A ++ '\n' :: t) = s ++ linesOf t := by
  induction A with
  | nil => exact ⟨[[]], by simp, by rw [List.nil_append, linesOf_cons_nl]; rfl⟩
  | cons c A ih =>
    obtain ⟨s, hs, heq⟩ := ih
    by_cases hc : (c == '\n') = true
    · have hc' : c = '\n' := by simpa using hc
      subst hc'
      exact ⟨[] :: s, by simp, by rw [List.cons_append, linesOf_cons_nl, heq]; rfl⟩
    · refine ⟨(c :: s.headD []) :: s.tail, by simp, ?_⟩
      rw [List.cons_append, linesOf_cons_ne c _ (by simpa using hc), heq]
      cases s with
      | nil => exact absurd rfl hs
      | cons s0 srest => simp

theorem mem_linesOf_append_nl {x : List Char} (A t : List Char)
    (h : x ∈ linesOf t) : x ∈ linesOf (A ++ '\n' :: t) := by
  obtain ⟨s, _, heq⟩ := linesOf_append_nl A t
  rw [heq]
  exact List.mem_append.mpr (Or.inr h)

theorem headerOf_decomp (d : PyDecl) :
    headerOf d = (if d.isClass then "class " else "def ").data ++
      (d.name.data ++ ('(' :: (d.args.data ++ [')', ':']))) := by
  simp [headerOf, groupOf]

theorem no_nl_headerOf (d : PyDecl) (hg : GoodDecl d) :
    ∀ c ∈ headerOf d, c ≠ '\n' := by
  obtain ⟨hn0, hnw, hncls, hndef, hac, hacls, hadef, hbody⟩ := hg
  intro c hc
  rw [headerOf_decomp] at hc
  simp only [List.mem_append, List.mem_cons] at hc
  rcases hc with hc | hc | hc | hc | hc | hc
  · intro he
    subst he
    cases hic : d.isClass <;> rw [hic] at hc <;> exact absurd hc (by decide)
  · exact (word_ne (hnw c hc)).2.1
  · subst hc; decide
  · exact (hac c hc).2.1
  · subst hc; decide
  · rcases hc with hc | hc
    · subst hc; decide
    · simp at hc

theorem replOf_split (d : PyDecl) : replOf d =
    headerOf d ++ '\n' :: ("    ... #  # " ++ explOf d ++ "\n").data := by
  unfold replOf replStub headerOf
  rw [List.append_assoc]
  have h0 : (":\n    ... #  # " ++ explOf d ++ "\n").data =
      [':'] ++ '\n' :: ("    ... #  # " ++ explOf d ++ "\n").data := by
    cases hic : d.isClass <;>
      simp only [explOf, hic, Bool.false_eq_true, if_false, if_true] <;> decide
  rw [h0]

/-- At level INTERFACE (class rule then def rule), a text of two adjacent
well-formed declarations is transformed declaration by declaration: each body
collapses to the replacement stub and the following declaration is untouched
by the preceding match. -/
theorem interface_two (d1 d2 : PyDecl) (h1 : GoodDecl d1) (h2 : GoodDecl d2) :
    applyDefRule (applyClassRule (declTextOf d1 ++ '\n' :: declTextOf d2)) =
      replOf d1 ++ '\n' :: replOf d2 := by
  have hq2decl : ∀ c ∈ ('\n' :: declTextOf d2), c ≠ '\"' := by
    intro c hc
    rcases List.mem_cons.mp hc with hc | hc
    · subst hc; decide
    · exact no_quote_declText d2 h2 c hc
  have hq2repl : ∀ c ∈ ('\n' :: replOf d2), c ≠ '\"' := by
    intro c hc
    rcases List.mem_cons.mp hc with hc | hc
    · subst hc; decide
    · exact no_quote_replOf d2 h2 c hc
  have hTdecl : ('\n' :: declTextOf d2) = [] ∨
      ∃ r, ('\n' :: declTextOf d2) = '\n' :: r ∧ startsCD r = true :=
    Or.inr ⟨declTextOf d2, rfl, startsCD_declText d2⟩
  have hTrepl : ('\n' :: replOf d2) = [] ∨
      ∃ r, ('\n' :: replOf d2) = '\n' :: r ∧ startsCD r = true :=
    Or.inr ⟨replOf d2, rfl, startsCD_replOf d2⟩
  cases hic1 : d1.isClass <;> cases hic2 : d2.isClass
  · have hstep1 : applyClassRule (declTextOf d1 ++ '\n' :: declTextOf d2) =
        declTextOf d1 ++ '\n' :: declTextOf d2 :=
      subst_two tryClass (replStub "Class interface preserved") "class".data
        (by decide) (by decide) (fun cs h => tryClass_none h)
        _ _ _ _ (declTextOf_ne_nil d1) (declTextOf_ne_nil d2)
        (Or.inr ⟨noLit_class_declText d1 h1 hic1, rfl⟩)
        (Or.inr ⟨noLit_class_declText d2 h2 hic2, rfl⟩)
    rw [hstep1]
    exact subst_two tryDef (replStub "Function signature preserved") "def".data
      (by decide) (by decide) (fun cs h => tryDef_none h)
      _ _ _ _ (declTextOf_ne_nil d1) (declTextOf_ne_nil d2)
      (Or.inl ⟨groupOf d1, tryDef_decl d1 h1 hic1 _ hTdecl hq2decl,
        by simp [replOf, explOf, hic1]⟩)
      (Or.inl ⟨groupOf d2, (by rw [← List.append_nil (declTextOf d2)]; exact tryDef_decl d2 h2 hic2 [] (Or.inl rfl) (by simp) : _),
        by simp [replOf, explOf, hic2]⟩)
  · have hstep1 : applyClassRule (declTextOf d1 ++ '\n' :: declTextOf d2) =
        declTextOf d1 ++ '\n' :: replOf d2 :=
      subst_two tryClass (replStub "Class interface preserved") "class".data
        (by decide) (by decide) (fun cs h => tryClass_none h)
        _ _ _ _ (declTextOf_ne_nil d1) (declTextOf_ne_nil d2)
        (Or.inr ⟨noLit_class_declText d1 h1 hic1, rfl⟩)
        (Or.inl ⟨groupOf d2, (by rw [← List.append_nil (declTextOf d2)]; exact tryClass_decl d2 h2 hic2 [] (Or.inl rfl) (by simp) : _),
          by simp [replOf, explOf, hic2]⟩)
    rw [hstep1]
    exact subst_two tryDef (replStub "Function signature preserved") "def".data
      (by decide) (by decide) (fun cs h => tryDef_none h)
      _ _ _ _ (declTextOf_ne_nil d1) (replOf_ne_nil d2)
      (Or.inl ⟨groupOf d1, tryDef_decl d1 h1 hic1 _ hTrepl hq2repl,
        by simp [replOf, explOf, hic1]⟩)
      (Or.inr ⟨noLit_def_replOf d2 h2 hic2, rfl⟩)
  · have hstep1 : applyClassRule (declTextOf d1 ++ '\n' :: declTextOf d2) =
        replOf d1 ++ '\n' :: declTextOf d2 :=
      subst_two tryClass (replStub "Class interface preserved") "class".data
        (by decide) (by decide) (fun cs h => tryClass_none h)
        _ _ _ _ (declTextOf_ne_nil d1) (declTextOf_ne_nil d2)
        (Or.inl ⟨groupOf d1, tryClass_decl d1 h1 hic1 _ hTdecl hq2decl,
          by simp [replOf, explOf, hic1]⟩)
        (Or.inr ⟨noLit_class_declText d2 h2 hic2, rfl⟩)
    rw [hstep1]
    exact subst_two tryDef (replStub "Function signature preserved") "def".data
      (by decide) (by decide) (fun cs h => tryDef_none h)
      _ _ _ _ (replOf_ne_nil d1) (declTextOf_ne_nil d2)
      (Or.inr ⟨noLit_def_replOf d1 h1 hic1, rfl⟩)
      (Or.inl ⟨groupOf d2, (by rw [← List.append_nil (declTextOf d2)]; exact tryDef_decl d2 h2 hic2 [] (Or.inl rfl) (by simp) : _),
        by simp [replOf, explOf, hic2]⟩)
  · have hstep1 : applyClassRule (declTextOf d1 ++ '\n' :: declTextOf d2) =
        replOf d1 ++ '\n' :: replOf d2 :=
      subst_two tryClass (replStub "Class interface preserved") "class".data
        (by decide) (by decide) (fun cs h => tryClass_none h)
        _ _ _ _ (declTextOf_ne_nil d1) (declTextOf_ne_nil d2)
        (Or.inl ⟨groupOf d1, tryClass_decl d1 h1 hic1 _ hTdecl hq2decl,
          by simp [replOf, explOf, hic1]⟩)
        (Or.inl ⟨groupOf d2, (by rw [← List.append_nil (declTextOf d2)]; exact tryClass_decl d2 h2 hic2 [] (Or.inl rfl) (by simp) : _),
          by simp [replOf, explOf, hic2]⟩)
    rw [hstep1]
    exact subst_two tryDef (replStub "Function signature preserved") "def".data
      (by decide) (by decide) (fun cs h => tryDef_none h)
      _ _ _ _ (replOf_ne_nil d1) (replOf_ne_nil d2)
      (Or.inr ⟨noLit_def_replOf d1 h1 hic1, rfl⟩)
      (Or.inr ⟨noLit_def_replOf d2 h2 hic2, rfl⟩)

/-- Claim C8: for text consisting of two adjacent top-level declarations
(type or callable), transformation at level interface collapses each
declaration's body to its replacement stub but never consumes the header line
of the following declaration: both header lines are present (as lines) in the
transformed output. -/
theorem claim_C8_adjacent_headers (d1 d2 : PyDecl)
    (h1 : GoodDecl d1) (h2 : GoodDecl d2) :
    (summarizeContent .INTERFACE ⟨declTextOf d1 ++ '\n' :: declTextOf d2⟩).data =
      replOf d1 ++ '\n' :: replOf d2 ∧
    headerOf d1 ∈ linesOf (summarizeContent .INTERFACE
      ⟨declTextOf d1 ++ '\n' :: declTextOf d2⟩).data ∧
    headerOf d2 ∈ linesOf (summarizeContent .INTERFACE
      ⟨declTextOf d1 ++ '\n' :: declTextOf d2⟩).data := by
  have hmain : (summarizeContent .INTERFACE
      ⟨declTextOf d1 ++ '\n' :: declTextOf d2⟩).data =
      replOf d1 ++ '\n' :: replOf d2 := interface_two d1 d2 h1 h2
  refine ⟨hmain, ?_, ?_⟩
  · rw [hmain]
    have hF : replOf d1 ++ '\n' :: replOf d2 =
        headerOf d1 ++ ('\n' ::
          (("    ... #  # " ++ explOf d1 ++ "\n").data ++ '\n' :: replOf d2)) := by
      rw [replOf_split d1]
      simp
    rw [hF]
    exact mem_linesOf_self (no_nl_headerOf d1 h1) (Or.inr rfl)
  · rw [hmain]
    apply mem_linesOf_append_nl
    rw [replOf_split d2]
    exact mem_linesOf_self (no_nl_headerOf d2 h2) (Or.inr rfl)

theorem claim_C8_witness :
    GoodDecl ⟨true, "Foo", "x", ["    pass"]⟩ ∧
    GoodDecl ⟨false, "bar", "y", ["    return y"]⟩ ∧
    (headerOf ⟨true, "Foo", "x", ["    pass"]⟩ ∈
      linesOf (summarizeContent .INTERFACE
        ⟨declTextOf ⟨true, "Foo", "x", ["    pass"]⟩ ++
          '\n' :: declTextOf ⟨false, "bar", "y", ["    return y"]⟩⟩).data ∧
     headerOf ⟨false, "bar", "y", ["    return y"]⟩ ∈
      linesOf (summarizeContent .INTERFACE
        ⟨declTextOf ⟨true, "Foo", "x", ["    pass"]⟩ ++
          '\n' :: declTextOf ⟨false, "bar", "y", ["    return y"]⟩⟩).data) :=
  ⟨by decide, by decide,
    (claim_C8_adjacent_headers ⟨true, "Foo", "x", ["    pass"]⟩
      ⟨false, "bar", "y", ["    return y"]⟩ (by decide) (by decide)).2⟩
